import Mathlib

/-!
Verification development for `scripts/build.py` of the content-farm-terminator
blocklist tooling.  The Python source is shallowly embedded: strings become
`List Char`, the regexes of the source are translated into executable
character-list matchers that implement the same matching semantics
(anchored patterns, greedy/lazy quantifier behaviour, and the CPython quirk
that `$` also matches just before one trailing newline while `.` never
crosses a newline), and the stateful `Rule` object becomes an immutable
structure rebuilt by the mutating operations.
-/

namespace Build

/-- Characters matched by Python's `\s` in Unicode (str) mode: ASCII
whitespace, the C1 separators, and the usual Unicode space characters. -/
def pySpaceChars : List Char :=
  [' ', '\t', '\n', '\x0b', '\x0c', '\r', '\x1c', '\x1d', '\x1e', '\x1f',
   '\x85', '\xa0', ' ', ' ', ' ', ' ', ' ', ' ',
   ' ', ' ', ' ', ' ', ' ', ' ', ' ',
   ' ', ' ', ' ', '　']

/-- Python `\s` on one character. -/
def isPySpace (c : Char) : Bool := c ∈ pySpaceChars

/-- Lowercase ASCII letter, as used by the `[a-z]` classes of the source. -/
def isLowerAlpha (c : Char) : Bool := 'a' ≤ c ∧ c ≤ 'z'

/-- ASCII decimal digit (`[0-9]`; Python's `isascii() and isdigit()`). -/
def isAsciiDigit (c : Char) : Bool := '0' ≤ c ∧ c ≤ '9'

/-- Character class `[0-9a-z+.-]` of `RE_SCHEME_RULE`. -/
def isSchemeChar (c : Char) : Bool :=
  isAsciiDigit c ∨ isLowerAlpha c ∨ c = '+' ∨ c = '.' ∨ c = '-'

/-- Character class `[0-9a-z*-]` of `RE_DOMAIN_RULE`. -/
def isDomainChar (c : Char) : Bool :=
  isAsciiDigit c ∨ isLowerAlpha c ∨ c = '*' ∨ c = '-'

/-- Hex digit as accepted by `ipaddress._parse_hextet` (`0-9a-fA-F`). -/
def isHexDigit (c : Char) : Bool :=
  isAsciiDigit c ∨ ('a' ≤ c ∧ c ≤ 'f') ∨ ('A' ≤ c ∧ c ≤ 'F')

/-- Word character for Python's `\b` (modelled for ASCII text:
`[A-Za-z0-9_]`). -/
def isWordChar (c : Char) : Bool :=
  ('a' ≤ c ∧ c ≤ 'z') ∨ ('A' ≤ c ∧ c ≤ 'Z') ∨ isAsciiDigit c ∨ c = '_'

/-- The span matched by a fully anchored CPython pattern `^...$` whose
wildcards cannot cross a newline: `$` may sit just before one trailing
newline, and any other newline in the string makes the match fail. -/
def pyFullLine (s : List Char) : Option (List Char) :=
  let s' := if s.getLast? = some '\n' then s.dropLast else s
  if '\n' ∈ s' then none else some s'

/-- Numeric value of a decimal digit string. -/
def digitsToNat (s : List Char) : Nat :=
  s.foldl (fun acc c => acc * 10 + (c.toNat - '0'.toNat)) 0

/-- Numeric value of a hexadecimal digit string. -/
def hexVal (c : Char) : Nat :=
  if isAsciiDigit c then c.toNat - '0'.toNat
  else if 'a' ≤ c ∧ c ≤ 'f' then c.toNat - 'a'.toNat + 10
  else c.toNat - 'A'.toNat + 10

def hexToNat (s : List Char) : Nat :=
  s.foldl (fun acc c => acc * 16 + hexVal c) 0

/-! ### `ipaddress` parsing (CPython standard library, as called by
`Rule.set_rule`) -/

/-- `IPv4Address._parse_octet`: ASCII digits only, at most 3 of them, no
leading zero unless the octet is exactly `0`, value at most 255. -/
def parseOctet (s : List Char) : Option Nat :=
  if s ≠ [] ∧ s.all isAsciiDigit ∧ s.length ≤ 3 ∧
      (s.head? = some '0' → s.length = 1) then
    let n := digitsToNat s
    if n ≤ 255 then some n else none
  else none

/-- `IPv4Address._ip_int_from_string` (plus the constructor's rejection of
`/`): split on `.`, exactly four octets. -/
def parseIPv4 (s : List Char) : Option Nat :=
  if '/' ∈ s then none
  else
    match (s.splitOn '.').mapM parseOctet with
    | some [a, b, c, d] => some (((a * 256 + b) * 256 + c) * 256 + d)
    | _ => none

/-- `IPv6Address._parse_hextet`: hex digits only, at most 4, nonempty. -/
def parseHextet (s : List Char) : Option Nat :=
  if s ≠ [] ∧ s.all isHexDigit ∧ s.length ≤ 4 then some (hexToNat s)
  else none

/-- A `:`-separated part of an IPv6 literal: either a raw hextet string or
one of the two numeric hextets substituted for a trailing embedded IPv4
address. -/
inductive V6Part
  | str (s : List Char)
  | num (n : Nat)

/-- Is the part the empty string?  (`not parts[i]` in CPython; the numeric
substitutes are never empty.) -/
def V6Part.isEmptyStr : V6Part → Bool
  | .str s => s.isEmpty
  | .num _ => false

def parseV6Part : V6Part → Option Nat
  | .str s => parseHextet s
  | .num n => some n

/-- `IPv6Address._ip_int_from_string` applied to a list of parts after the
`::` bookkeeping: `partsHi` parts from the front, zeros, `partsLo` parts
from the back. -/
def v6Assemble (parts : List V6Part) (partsHi partsLo : Nat) : Option (List Nat) :=
  match (parts.take partsHi).mapM parseV6Part,
        ((parts.drop (parts.length - partsLo)).mapM parseV6Part) with
  | some hs, some ls =>
      if hs.length + ls.length ≤ 8 then
        some (hs ++ List.replicate (8 - hs.length - ls.length) 0 ++ ls)
      else none
  | _, _ => none

/-- Indices `i` with `1 ≤ i ≤ parts.length - 2` whose part is the empty
string (the interior `::` positions). -/
def v6SkipIndices (parts : List V6Part) : List Nat :=
  (List.range parts.length).filter
    (fun i => decide (1 ≤ i) && decide (i + 1 < parts.length) &&
      (parts.getD i (.num 0)).isEmptyStr)

/-- Core of `IPv6Address._ip_int_from_string` after splitting on `:` and
substituting a trailing embedded IPv4 address. -/
def parseV6Parts (parts : List V6Part) : Option (List Nat) :=
  if parts.length < 3 ∨ 9 < parts.length then none
  else
    match v6SkipIndices parts with
    | [] =>
        if parts.length = 8 ∧ ¬ (parts.headD (.num 0)).isEmptyStr ∧
            ¬ (parts.getLastD (.num 0)).isEmptyStr then
          v6Assemble parts parts.length 0
        else none
    | [skip] =>
        let partsHi0 := skip
        let partsLo0 := parts.length - skip - 1
        let headEmpty := (parts.headD (.num 0)).isEmptyStr
        let lastEmpty := (parts.getLastD (.num 0)).isEmptyStr
        let partsHi := if headEmpty then partsHi0 - 1 else partsHi0
        let partsLo := if lastEmpty then partsLo0 - 1 else partsLo0
        if (headEmpty ∧ partsHi ≠ 0) ∨ (lastEmpty ∧ partsLo ≠ 0) then none
        else if partsHi + partsLo + 1 ≤ 8 then
          v6Assemble parts partsHi partsLo
        else none
    | _ => none

/-- `IPv6Address` string parsing: reject `/`, split off a `%scope`
(which must be nonempty and `%`-free), split on `:`, substitute a trailing
embedded IPv4 address by its two numeric hextets. -/
def parseIPv6 (s : List Char) : Option (List Nat) :=
  if '/' ∈ s then none
  else
    let addr := s.takeWhile (fun c => c ≠ '%')
    let scope := (s.dropWhile (fun c => c ≠ '%')).drop 1
    if '%' ∈ s ∧ (scope.isEmpty ∨ '%' ∈ scope) then none
    else
      let raw := addr.splitOn ':'
      match raw.getLast? with
      | none => none
      | some last =>
          if '.' ∈ last then
            match parseIPv4 last with
            | none => none
            | some n =>
                parseV6Parts ((raw.dropLast).map .str ++
                  [.num (n / 65536), .num (n % 65536)])
          else parseV6Parts (raw.map .str)

/-- `ipaddress.ip_address(s).version`: try IPv4 first, then IPv6. -/
def ipAddressVersion (s : List Char) : Option Nat :=
  match parseIPv4 s with
  | some _ => some 4
  | none =>
      match parseIPv6 s with
      | some _ => some 6
      | none => none

/-! ### The rule regexes -/

/-- `RE_REGEX_RULE = ^/(.*)/([a-z]*)$`.  Because the flags class excludes
`/`, the closing delimiter of a successful match is the unique `/` whose
suffix consists of lowercase letters only; the greedy `(.*)` therefore
captures everything up to it. -/
def matchRegexCore (s' : List Char) : Option (List Char × List Char) :=
  match s' with
  | c0 :: rest =>
      if c0 = '/' then
        match rest.reverse.drop (rest.reverse.takeWhile isLowerAlpha).length with
        | c1 :: patRev =>
            if c1 = '/' then
              some (patRev.reverse, (rest.reverse.takeWhile isLowerAlpha).reverse)
            else none
        | [] => none
      else none
  | [] => none

def matchRegexRule (s : List Char) : Option (List Char × List Char) :=
  match pyFullLine s with
  | none => none
  | some s' => matchRegexCore s'

/-- `RE_SCHEME_RULE = ^([a-z][0-9a-z+.-]+):(.*)$`.  The class excludes `:`,
so the greedy `+` run is the maximal run of scheme characters and the match
succeeds exactly when the character after it is `:`. -/
def matchSchemeCore (s' : List Char) : Option (List Char × List Char) :=
  match s' with
  | c :: rest =>
      if isLowerAlpha c then
        if (rest.takeWhile isSchemeChar).length = 0 then none
        else
          match rest.drop (rest.takeWhile isSchemeChar).length with
          | d :: value =>
              if d = ':' then some (c :: rest.takeWhile isSchemeChar, value)
              else none
          | [] => none
      else none
  | [] => none

def matchSchemeRule (s : List Char) : Option (List Char × List Char) :=
  match pyFullLine s with
  | none => none
  | some s' => matchSchemeCore s'

/-- `RE_DOMAIN_RULE = ^(?:[0-9a-z*-]+)(?:\.[0-9a-z*-]+)*$`: one or more
nonempty dot-separated segments over `[0-9a-z*-]`. -/
def matchDomainCore (s' : List Char) : Bool :=
  (s'.splitOn '.').all (fun seg => ¬ seg.isEmpty ∧ seg.all isDomainChar)

def matchDomainRule (s : List Char) : Bool :=
  match pyFullLine s with
  | none => false
  | some s' => matchDomainCore s'

/-! ### The Rule model -/

/-- The rule kind together with the captures `set_rule` stores alongside it
(`self.pattern`/`self.flags` for regexes, `self.scheme`/`self.value` for
scheme rules). -/
inductive RuleType
  | regex (pattern flags : List Char)
  | scheme (name value : List Char)
  | ipv6
  | ipv4
  | domain
  | raw
  deriving DecidableEq, Repr

/-- `Rule.set_rule`'s classification cascade: regex, scheme, bracketed IPv6
(which returns even on failure), IPv4 (falling through when the literal
parses with version 6), domain, otherwise `None`. -/
def classifyValue (v : List Char) : Option RuleType :=
  match matchRegexRule v with
  | some (p, f) => some (.regex p f)
  | none =>
    match matchSchemeRule v with
    | some (n, value) => some (.scheme n value)
    | none =>
      if v.head? = some '[' ∧ v.getLast? = some ']' then
        if (parseIPv6 (v.drop 1 |>.dropLast)).isSome ∧
            (parseIPv4 (v.drop 1 |>.dropLast)).isNone then some .ipv6
        else none
      else
        if ipAddressVersion v = some 4 then some .ipv4
        else if matchDomainRule v then some .domain else none

/-- One rule line: original input, the value/separator/comment split of
`RE_SPACE_MATCHER`, and the classification. -/
structure Rule where
  input : List Char
  rule : List Char
  sep : List Char
  comment : List Char
  rtype : Option RuleType
  deriving DecidableEq, Repr

/-- `Rule.set_rule`: replace the value and reclassify. -/
def Rule.setRule (r : Rule) (v : List Char) : Rule :=
  { r with rule := v, rtype := classifyValue v }

/-- `Rule.set_rule_raw`: force the value; nonempty text gets kind `raw`,
empty text reverts to `None`. -/
def Rule.setRuleRaw (r : Rule) (v : List Char) : Rule :=
  { r with rule := v, rtype := if v.isEmpty then none else some .raw }

/-- `Rule.__init__` for a line with its terminator stripped (such lines
contain no newline): `RE_SPACE_MATCHER = ^(\S*)(\s*)(.*)$` takes the maximal
run of non-whitespace, then the maximal run of whitespace, then the rest. -/
def mkRule (input : List Char) : Rule :=
  let value := input.takeWhile (fun c => ¬ isPySpace c)
  let rest := input.dropWhile (fun c => ¬ isPySpace c)
  { input := input
    rule := value
    sep := rest.takeWhile isPySpace
    comment := rest.dropWhile isPySpace
    rtype := classifyValue value }

/-- The line printed by `Converter.print_rule`. -/
def printRuleLine (r : Rule) : List Char := r.rule ++ r.sep ++ r.comment

/-! ### Processor pipeline (`Converter.process_rule`) -/

/-- The capture-free kind names used by a processor's `type` filter
(compared against `rule.type` as strings in the source). -/
inductive PKind
  | regex | scheme | ipv6 | ipv4 | domain | raw
  deriving DecidableEq, Repr

/-- Kind name of a classified rule type. -/
def kindOf : RuleType → PKind
  | .regex _ _ => .regex
  | .scheme _ _ => .scheme
  | .ipv6 => .ipv6
  | .ipv4 => .ipv4
  | .domain => .domain
  | .raw => .raw

/-- `processor.get('type') not in (rule.type, None)` skips the processor;
an absent filter is universal, a present one must equal the rule's kind. -/
def typeFilterOk (ptype : Option PKind) (rtype : Option RuleType) : Bool :=
  match ptype with
  | none => true
  | some k => rtype.map kindOf = some k

/-- A compiled `pattern` together with its `replacement`, abstracted as the
behaviour of CPython's regex engine on a value: `search` is
`regex.search(text) is not None` and `sub` is `regex.sub(replacement, text)`. -/
structure PatternFn where
  search : List Char → Bool
  sub : List Char → List Char

/-- One processor spec: optional `type` filter, optional literal `find`,
optional compiled `pattern` (with the `replacement` baked into `sub`), the
literal `replacement` used when no pattern is given, and `mode`. -/
structure Processor where
  ptype : Option PKind
  find : Option (List Char)
  pattern : Option PatternFn
  replacement : List Char
  mode : List Char

/-- `find in text`: substring test. -/
def isSubstring (needle hay : List Char) : Bool :=
  match hay with
  | [] => needle.isEmpty
  | _ :: t => needle.isPrefixOf hay || isSubstring needle t

/-- Whether a processor matches the current rule (type filter, then the
`find` substring test, else the `pattern` search, else always). -/
def procMatches (p : Processor) (r : Rule) : Bool :=
  typeFilterOk p.ptype r.rtype &&
    (match p.find with
     | some f => isSubstring f r.rule
     | none =>
       match p.pattern with
       | some pf => pf.search r.rule
       | none => true)

/-- The rewrite applied by a matching processor: the substitution result if
a pattern is present, otherwise the literal replacement; assigned through
`set_rule_raw` when `mode == 'raw'`, else through `set_rule`. -/
def applyProcessor (p : Processor) (r : Rule) : Rule :=
  let newRule :=
    match p.pattern with
    | some pf => pf.sub r.rule
    | none => p.replacement
  if p.mode = ("raw").data then r.setRuleRaw newRule else r.setRule newRule

/-- `Converter.process_rule`: evaluate processors in order, apply the first
match and stop. -/
def processRule (r : Rule) : List Processor → Rule
  | [] => r
  | p :: rest => if procMatches p r then applyProcessor p r else processRule r rest

/-! ### Grouping scheme flush (`Converter.handle_grouping_scheme_rules`)

A scheme's `value` template contains one substitution placeholder, so it is
modelled as the text before and after the placeholder (`tpre`/`tpost`).
Buffered items are `(escapedValue, originatingRule)` pairs; the packing
logic only reads the escaped value, so the rule payload stays abstract. -/

/-- `get_joined_value(pos)`: join the first `pos` escaped values with the
grouping separator and substitute into the template. -/
def getJoinedValue (sep tpre tpost : List Char) (items : List (List Char × α)) (pos : Nat) : List Char :=
  tpre ++ (List.intercalate sep ((items.take pos).map Prod.fst)) ++ tpost

/-- The `while pos_min <= pos_max` loop of `bsearch`, carrying the last
probed `pos, value` exactly as the Python locals do. -/
def bsearchLoop (sep tpre tpost : List Char) (m : Nat) (items : List (List Char × α))
    (posMin posMax : Int) (pos : Nat) (value : List Char) : Nat × List Char :=
  if h : posMin ≤ posMax then
    let q : Int := posMin + (posMax - posMin) / 2
    let v := getJoinedValue sep tpre tpost items q.toNat
    if v.length ≤ m then bsearchLoop sep tpre tpost m items (q + 1) posMax q.toNat v
    else bsearchLoop sep tpre tpost m items posMin (q - 1) q.toNat v
  else (pos, value)
termination_by (posMax + 1 - posMin).toNat
decreasing_by
  · omega
  · omega

/-- `handle_grouping_scheme_rules.bsearch`: check whether everything fits,
else binary-search and return the last probed `pos, value`. -/
def bsearch (sep tpre tpost : List Char) (m : Nat) (items : List (List Char × α)) : Nat × List Char :=
  let pos := items.length
  let value := getJoinedValue sep tpre tpost items pos
  if value.length ≤ m then (pos, value)
  else bsearchLoop sep tpre tpost m items 0 (pos - 1 : Int) pos value

/-- The `while items:` packing loop: emit the `bsearch` prefix when
`pos > 0`, otherwise warn about and drop the leading item.  Returns the
emitted output lines and the dropped items. -/
def packFlush (sep tpre tpost : List Char) (m : Nat)
    (items : List (List Char × α)) : List (List Char) × List (List Char × α) :=
  match hit : items with
  | [] => ([], [])
  | it :: rest =>
      let pv := bsearch sep tpre tpost m items
      if hpos : pv.1 > 0 then
        let r := packFlush sep tpre tpost m (items.drop pv.1)
        (pv.2 :: r.1, r.2)
      else
        let r := packFlush sep tpre tpost m rest
        (r.1, it :: r.2)
termination_by items.length
decreasing_by
  · subst hit
    have h2 : (bsearch sep tpre tpost m (it :: rest)).1 > 0 := hpos
    simp only [List.length_drop, List.length_cons]
    omega
  · subst hit; simp

/-- Per-scheme flush: with no configured max everything is joined into a
single line, otherwise the packing loop runs. -/
def handleGroupingScheme (sep tpre tpost : List Char) (mmax : Option Nat)
    (items : List (List Char × α)) : List (List Char) × List (List Char × α) :=
  match mmax with
  | none => ([getJoinedValue sep tpre tpost items items.length], [])
  | some m => packFlush sep tpre tpost m items

/-! ### Aggregator (`Aggregator.run_task`)

The destination text is a `List Char`.  The block-search regex

`^\s+#!aggregated source: {url}\n(.*?)\n(?=^\s+#!aggregated\b|\Z)`

(compiled with `re.M | re.S`) is translated literally: `^` matches at the
start or after a newline; because `#` is not whitespace, the greedy `\s+`
is forced to the maximal whitespace run before the literal; the lazy
`(.*?)` stops at the first newline whose successor position satisfies the
lookahead or ends the text. -/

/-- `^` under `re.M`: position 0 or just after a newline. -/
def lineStartAt (t : List Char) (i : Nat) : Bool :=
  i = 0 ∨ t[i - 1]? = some '\n'

/-- Length of the whitespace run starting at `i`. -/
def wsRunLen (t : List Char) (i : Nat) : Nat :=
  ((t.drop i).takeWhile isPySpace).length

/-- The header-line literal after the `\s+`: the source marker, the URL and
the newline closing the header line. -/
def headerLit (url : List Char) : List Char :=
  ("#!aggregated source: ").data ++ url ++ ['\n']

/-- `^\s+#!aggregated source: {url}\n` at position `i`; returns the
position just after the header's newline. -/
def matchHeaderAt (url t : List Char) (i : Nat) : Option Nat :=
  if lineStartAt t i then
    let w := wsRunLen t i
    if w = 0 then none
    else if (headerLit url).isPrefixOf (t.drop (i + w)) then
      some (i + w + (headerLit url).length)
    else none
  else none

/-- The lookahead `^\s+#!aggregated\b` at position `p` (`\b` after the final
`d`: the next character, if any, is not a word character). -/
def aggMarkerAt (t : List Char) (p : Nat) : Bool :=
  lineStartAt t p ∧
    (let w := wsRunLen t p
     w ≠ 0 ∧ ("#!aggregated").data.isPrefixOf (t.drop (p + w)) ∧
       ¬ (t[p + w + 12]?).any isWordChar)

/-- Does the lazy `(.*?)\n(?=^\s+#!aggregated\b|\Z)` stop with its newline
at position `e`? -/
def bodyEndCond (t : List Char) (e : Nat) : Bool :=
  t[e]? = some '\n' ∧ (e + 1 = t.length ∨ aggMarkerAt t (e + 1))

/-- First position `e ≥ h` where the lazy tail can stop. -/
def findBodyEnd (t : List Char) (h : Nat) : Option Nat :=
  (List.range' h (t.length - h)).findSome?
    (fun e => if bodyEndCond t e then some e else none)

/-- A full regex match starting at `i`; returns `m.end(0)`. -/
def fullMatchAt (url t : List Char) (i : Nat) : Option Nat :=
  match matchHeaderAt url t i with
  | none => none
  | some hdrEnd =>
      match findBodyEnd t hdrEnd with
      | none => none
      | some e => some (e + 1)

/-- `re.search` of the block pattern: `(m.start(0), m.end(0))` of the
leftmost match, scanning candidate start positions left to right. -/
def findBlock (url t : List Char) : Option (Nat × Nat) :=
  (List.range' 0 t.length).findSome?
    (fun i => (fullMatchAt url t i).map (fun en => (i, en)))

/-- One merge step of `Aggregator.run_task` for one source: replace the
matched span (restoring a newline before it when the match did not start at
position 0), or append the block separated by a newline from nonempty prior
text. -/
def mergeOne (url out t : List Char) : List Char :=
  match findBlock url t with
  | some (s, e) =>
      t.take s ++ (if s = 0 then [] else ['\n']) ++ out ++ t.drop e
  | none => t ++ (if t.isEmpty then [] else ['\n']) ++ out

/-- A rule extracted by the aggregator: its value, its comment, and the
origin URL stored in `path`. -/
structure AggRule where
  rule : List Char
  comment : List Char
  path : List Char
  deriving DecidableEq, Repr

/-- One declared source: its URL and the rules extracted from its fetched
text, `none` when the fetch failed (transport error or non-success status;
fetching and the format-specific extraction are abstracted into this
field). -/
structure AggSource where
  url : List Char
  fetched : Option (List AggRule)

/-- One output line of a source's block, before its newline:
`f'{rule.rule} {rule.comment}{" " if rule.comment else ""}#!aggregated'`. -/
def ruleLineCore (r : AggRule) : List Char :=
  r.rule ++ [' '] ++ r.comment ++ (if r.comment.isEmpty then [] else [' ']) ++
    ("#!aggregated").data

/-- One output line of a source's block, with its newline. -/
def ruleLine (r : AggRule) : List Char := ruleLineCore r ++ ['\n']

/-- The block text for one source URL: the header line followed by the
lines of the rules extracted from that URL. -/
def sourceOutput (url : List Char) (rules : List AggRule) : List Char :=
  ("  ").data ++ headerLit url ++
    ((rules.filter (fun r => r.path = url)).map ruleLine).flatten

/-- The fetch/extraction loop: all sources must succeed, their rules are
concatenated; a single failure aborts the whole destination task. -/
def collectRules : List AggSource → Option (List AggRule)
  | [] => some []
  | s :: rest =>
      match s.fetched with
      | none => none
      | some rs => (collectRules rest).map (rs ++ ·)

/-- The merge loop over the declared sources with a fixed extracted rule
set. -/
def runTaskMerge (sources : List AggSource) (rules : List AggRule)
    (destText : List Char) : List Char :=
  sources.foldl (fun t s => mergeOne s.url (sourceOutput s.url rules) t) destText

/-- `Aggregator.run_task`: fetch and extract every source, abort (returning
`none`, destination untouched) on any failure, otherwise merge every
source's block into the destination text and write the result. -/
def runTask (sources : List AggSource) (destText : List Char) : Option (List Char) :=
  match collectRules sources with
  | none => none
  | some rules => some (runTaskMerge sources rules destText)

/-! ### Statement-level predicates used by the claims -/

/-- Surface pattern of a regex rule: `/<pattern>/<flags>`. -/
abbrev regexSurface (v : List Char) : Prop := (matchRegexRule v).isSome

/-- Surface pattern of a scheme rule: `<scheme>:<rest>`. -/
abbrev schemeSurface (v : List Char) : Prop := (matchSchemeRule v).isSome

/-- Surface pattern of an IPv6 rule: enclosed in brackets with an interior
that `ip_address` accepts as a version-6 address. -/
abbrev ipv6Surface (v : List Char) : Prop :=
  v.head? = some '[' ∧ v.getLast? = some ']' ∧
    (parseIPv6 (v.drop 1 |>.dropLast)).isSome ∧
    (parseIPv4 (v.drop 1 |>.dropLast)).isNone

/-- Surface pattern of an IPv4 rule: the value itself parses with
version 4. -/
abbrev ipv4Surface (v : List Char) : Prop := ipAddressVersion v = some 4

/-- Surface pattern of a domain rule. -/
abbrev domainSurface (v : List Char) : Prop := matchDomainRule v = true

/-- The indent and the header line's text before its closing newline. -/
def hdrPre (u : List Char) : List Char :=
  ("  ").data ++ ("#!aggregated source: ").data ++ u

/-- A block body line before its newline: nonempty, newline-free, starting
with a non-whitespace character. -/
def goodLine (l : List Char) : Prop :=
  l ≠ [] ∧ '\n' ∉ l ∧ ∀ x, l.head? = some x → ¬ isPySpace x

/-- The text of a list of lines, each terminated by a newline. -/
def linesText (ls : List (List Char)) : List Char :=
  (ls.map (fun l => l ++ ['\n'])).flatten

/-- The text of one source block: indent, header line, body. -/
def blkText (u body : List Char) : List Char :=
  ("  ").data ++ headerLit u ++ body

/-- The text of a run of blocks, each preceded by the blank-line separator
left by an append. -/
def tailBlocks (outs : List (List Char)) : List Char :=
  (outs.map (fun o => '\n' :: o)).flatten

/-- An extracted rule whose two text fields are newline-free and whose
value is nonempty and starts with a non-whitespace character (as the
`ublacklist` extraction guarantees). -/
def goodAggRule (r : AggRule) : Prop :=
  r.rule ≠ [] ∧ (∀ x, r.rule.head? = some x → ¬ isPySpace x) ∧
    '\n' ∉ r.rule ∧ '\n' ∉ r.comment

/-- Destination text the merge can treat predictably: it is empty or ends
with a newline, no line of it is whitespace-only to its end (in particular
it has no trailing blank lines), and the marker word `#!aggregated` occurs
nowhere in it. -/
def cleanDest (t : List Char) : Prop :=
  (t = [] ∨ t.getLast? = some '\n') ∧
    (∀ i, i < t.length → lineStartAt t i → ∃ c ∈ t.drop i, ¬ isPySpace c) ∧
    (∀ i, ¬ ("#!aggregated").data.isPrefixOf (t.drop i))

/-- Appending one block the way the no-match branch of the merge does. -/
def appendOut (t out : List Char) : List Char :=
  t ++ (if t.isEmpty then [] else ['\n']) ++ out

/-- The shape a destination has after blocks have been appended to clean
text: the text, then each block separated by one blank line. -/
def chainState (t : List Char) (outs : List (List Char)) : List Char :=
  outs.foldl appendOut t

/-- The rendered text of a block descriptor: a URL paired with the block's
body lines. -/
def blockOut (d : List Char × List (List Char)) : List Char :=
  blkText d.1 (linesText d.2)

/-- The descriptor of the block the merge writes for one source: its URL and
the rendered lines of the rules extracted from that URL. -/
def srcDesc (rules : List AggRule) (s : AggSource) : List Char × List (List Char) :=
  (s.url, (rules.filter (fun r => r.path = s.url)).map ruleLineCore)

/-! ## Helper lemmas -/

lemma takeWhile_append_of_all {p : Char → Bool} {l₁ l₂ : List Char}
    (h : ∀ a ∈ l₁, p a) :
    (l₁ ++ l₂).takeWhile p = l₁ ++ l₂.takeWhile p := by
  induction l₁ with
  | nil => simp
  | cons a l ih =>
      rw [List.cons_append, List.takeWhile_cons, if_pos (by simpa using h a (by simp)),
        ih fun a ha => h a (by simp [ha]), List.cons_append]

lemma dropWhile_append_of_all {p : Char → Bool} {l₁ l₂ : List Char}
    (h : ∀ a ∈ l₁, p a) :
    (l₁ ++ l₂).dropWhile p = l₂.dropWhile p := by
  induction l₁ with
  | nil => simp
  | cons a l ih =>
      rw [List.cons_append, List.dropWhile_cons, if_pos (by simpa using h a (by simp))]
      exact ih fun a ha => h a (by simp [ha])

lemma takeWhile_eq_nil_of_head {p : Char → Bool} {l : List Char}
    (h : ∀ x, l.head? = some x → ¬ p x) : l.takeWhile p = [] := by
  cases l with
  | nil => rfl
  | cons a t =>
      simp only [List.takeWhile_cons]
      rw [if_neg]
      simpa using h a rfl

lemma dropWhile_eq_self_of_head {p : Char → Bool} {l : List Char}
    (h : ∀ x, l.head? = some x → ¬ p x) : l.dropWhile p = l := by
  cases l with
  | nil => rfl
  | cons a t =>
      simp only [List.dropWhile_cons]
      rw [if_neg]
      simpa using h a rfl

lemma splitOn_cons_of_ne (sep c : Char) (t : List Char) (h : c ≠ sep) :
    ∃ q qs, (c :: t).splitOn sep = (c :: q) :: qs ∧ t.splitOn sep = q :: qs := by
  obtain ⟨q, qs, hq⟩ : ∃ q qs, t.splitOn sep = q :: qs := by
    cases ht : t.splitOn sep with
    | nil => exact absurd ht (List.splitOnP_ne_nil _ t)
    | cons q qs => exact ⟨q, qs, rfl⟩
  refine ⟨q, qs, ?_, hq⟩
  simp only [List.splitOn] at hq ⊢
  rw [List.splitOnP_cons, if_neg (by simpa using h), hq]
  rfl

lemma splitOn_cons_self (sep : Char) (t : List Char) :
    (sep :: t).splitOn sep = [] :: t.splitOn sep := by
  simp only [List.splitOn]
  rw [List.splitOnP_cons, if_pos (by simp)]

lemma parseIPv4_eq_none_of_head {c : Char} {t : List Char}
    (hc : isAsciiDigit c = false) : parseIPv4 (c :: t) = none := by
  unfold parseIPv4
  by_cases hm : '/' ∈ c :: t
  · rw [if_pos hm]
  · rw [if_neg hm]
    by_cases hdot : c = '.'
    · subst hdot
      rw [splitOn_cons_self]
      have h0 : parseOctet [] = none := by simp [parseOctet]
      have hm0 : ([] :: t.splitOn '.').mapM parseOctet = none := by
        rw [List.mapM_cons, h0]; rfl
      rw [hm0]
    · obtain ⟨q, qs, hq, -⟩ := splitOn_cons_of_ne '.' c t hdot
      rw [hq]
      have h0 : parseOctet (c :: q) = none := by
        unfold parseOctet
        rw [if_neg]
        rintro ⟨-, h2, -⟩
        simp [List.all_cons, hc] at h2
      have hm0 : ((c :: q) :: qs).mapM parseOctet = none := by
        rw [List.mapM_cons, h0]; rfl
      rw [hm0]

lemma pyFullLine_cons {c : Char} {t : List Char} (hnl : c ≠ '\n') :
    pyFullLine (c :: t) = none ∨ ∃ t', pyFullLine (c :: t) = some (c :: t') := by
  unfold pyFullLine
  by_cases hl : (c :: t).getLast? = some '\n'
  · cases t with
    | nil =>
        simp only [List.getLast?_singleton, Option.some.injEq] at hl
        exact absurd hl hnl
    | cons a t' =>
        simp only [if_pos hl]
        by_cases hm : '\n' ∈ (c :: a :: t').dropLast
        · left; rw [if_pos hm]
        · right
          refine ⟨(a :: t').dropLast, ?_⟩
          rw [if_neg hm]
          rfl
  · simp only [if_neg hl]
    by_cases hm : '\n' ∈ c :: t
    · left; rw [if_pos hm]
    · right; exact ⟨t, by rw [if_neg hm]⟩

lemma matchDomainRule_false_of_head {c : Char} {t : List Char}
    (hc : isDomainChar c = false) (hnl : c ≠ '\n') :
    matchDomainRule (c :: t) = false := by
  unfold matchDomainRule
  rcases pyFullLine_cons (t := t) hnl with h | ⟨t', h⟩
  · rw [h]
  · rw [h]
    show matchDomainCore (c :: t') = false
    unfold matchDomainCore
    by_cases hdot : c = '.'
    · subst hdot
      rw [splitOn_cons_self]
      simp
    · obtain ⟨q, qs, hq, -⟩ := splitOn_cons_of_ne '.' c t' hdot
      rw [hq]
      simp [List.all_cons, hc]

lemma ipAddressVersion_four_isSome {v : List Char}
    (h : ipAddressVersion v = some 4) : (parseIPv4 v).isSome := by
  unfold ipAddressVersion at h
  cases h4 : parseIPv4 v with
  | some _ => simp
  | none =>
      rw [h4] at h
      cases h6 : parseIPv6 v <;> rw [h6] at h <;> simp at h

lemma matchRegexRule_none_of_head {c : Char} {t : List Char}
    (hc : c ≠ '/') (hnl : c ≠ '\n') :
    matchRegexRule (c :: t) = none := by
  unfold matchRegexRule
  rcases pyFullLine_cons (t := t) hnl with h | ⟨t', h⟩
  · rw [h]
  · rw [h]
    show matchRegexCore (c :: t') = none
    simp only [matchRegexCore]
    rw [if_neg hc]

lemma isSchemeChar_ne_newline {x : Char} (h : isSchemeChar x) : x ≠ '\n' := by
  rintro rfl
  simp [isSchemeChar, isAsciiDigit, isLowerAlpha] at h

/-! ## Claim theorems -/

/-- **C7.** For every input line (terminator removed, hence newline-free),
building a `Rule` from it and printing the unmodified rule through
`Converter.print_rule` reconstructs the line: `value + separator + comment`
equals the input. -/
theorem C7_rule_roundtrip (input : List Char) (hnl : '\n' ∉ input) :
    printRuleLine (mkRule input) = input := by
  have h1 : (mkRule input).rule = input.takeWhile (fun c => ¬ isPySpace c) := rfl
  have h2 : (mkRule input).sep =
      (input.dropWhile (fun c => ¬ isPySpace c)).takeWhile isPySpace := rfl
  have h3 : (mkRule input).comment =
      (input.dropWhile (fun c => ¬ isPySpace c)).dropWhile isPySpace := rfl
  rw [printRuleLine, h1, h2, h3, List.append_assoc, List.takeWhile_append_dropWhile,
    List.takeWhile_append_dropWhile]

/-- Witness for C7 at the line `a.b  # note`. -/
theorem C7_rule_roundtrip_witness :
    printRuleLine (mkRule ("a.b  # note").data) = ("a.b  # note").data :=
  C7_rule_roundtrip ("a.b  # note").data (by decide)

/-- **C10.** For every rule constructed from a line, the value contains no
whitespace, the separator is all whitespace, the three fields reconstruct
the line, and any decomposition into a whitespace-free part, a whitespace
part and a remainder that does not begin with whitespace (with an empty
separator forcing an empty remainder) coincides with the one computed —
the value is the maximal leading non-whitespace run. -/
theorem C10_split_unique (input : List Char) (hnl : '\n' ∉ input) :
    (∀ x ∈ (mkRule input).rule, ¬ isPySpace x) ∧
    (∀ x ∈ (mkRule input).sep, isPySpace x) ∧
    (mkRule input).rule ++ (mkRule input).sep ++ (mkRule input).comment = input ∧
    (∀ v s c, input = v ++ s ++ c → (∀ x ∈ v, ¬ isPySpace x) →
      (∀ x ∈ s, isPySpace x) → (∀ x, c.head? = some x → ¬ isPySpace x) →
      (s = [] → c = []) →
      v = (mkRule input).rule ∧ s = (mkRule input).sep ∧ c = (mkRule input).comment) := by
  refine ⟨?_, ?_, ?_, ?_⟩
  · intro x hx
    have := List.mem_takeWhile_imp hx
    simpa using this
  · intro x hx
    exact List.mem_takeWhile_imp hx
  · have h1 : (mkRule input).rule = input.takeWhile (fun c => ¬ isPySpace c) := rfl
    have h2 : (mkRule input).sep =
        (input.dropWhile (fun c => ¬ isPySpace c)).takeWhile isPySpace := rfl
    have h3 : (mkRule input).comment =
        (input.dropWhile (fun c => ¬ isPySpace c)).dropWhile isPySpace := rfl
    rw [h1, h2, h3, List.append_assoc, List.takeWhile_append_dropWhile,
      List.takeWhile_append_dropWhile]
  · intro v s c hsplit hv hs hc hsc
    have hrest : s ++ c = (s ++ c).dropWhile (fun x => ¬ isPySpace x) := by
      cases s with
      | nil => rw [hsc rfl]; rfl
      | cons a t =>
          simp only [List.cons_append, List.dropWhile_cons]
          rw [if_neg]
          simp [hs a (by simp)]
    have hval : input.takeWhile (fun x => ¬ isPySpace x) = v := by
      rw [hsplit, List.append_assoc,
        takeWhile_append_of_all (p := fun x => ¬ isPySpace x) (by simpa using hv)]
      have : (s ++ c).takeWhile (fun x => ¬ isPySpace x) = [] := by
        cases s with
        | nil =>
            rw [hsc rfl]
            rfl
        | cons a t =>
            simp only [List.cons_append, List.takeWhile_cons]
            rw [if_neg]
            simp [hs a (by simp)]
      rw [this, List.append_nil]
    have hdrop : input.dropWhile (fun x => ¬ isPySpace x) = s ++ c := by
      rw [hsplit, List.append_assoc,
        dropWhile_append_of_all (p := fun x => ¬ isPySpace x) (by simpa using hv)]
      exact (hrest).symm
    have hsep : (input.dropWhile (fun x => ¬ isPySpace x)).takeWhile isPySpace = s := by
      rw [hdrop, takeWhile_append_of_all hs, takeWhile_eq_nil_of_head hc, List.append_nil]
    have hcom : (input.dropWhile (fun x => ¬ isPySpace x)).dropWhile isPySpace = c := by
      rw [hdrop, dropWhile_append_of_all hs, dropWhile_eq_self_of_head hc]
    exact ⟨hval.symm, hsep.symm, hcom.symm⟩

/-- Witness for C10 at the line `a.b  # note`. -/
theorem C10_split_unique_witness :
    (∀ x ∈ (mkRule (("a.b  # note").data)).rule, ¬ isPySpace x) ∧
    (mkRule (("a.b  # note").data)).rule ++ (mkRule (("a.b  # note").data)).sep ++
      (mkRule (("a.b  # note").data)).comment = ("a.b  # note").data :=
  ⟨(C10_split_unique ("a.b  # note").data (by decide)).1,
   (C10_split_unique ("a.b  # note").data (by decide)).2.2.1⟩

end Build

namespace Build

lemma classifyValue_of_none {v : List Char}
    (h : matchRegexRule v = none) (h2 : matchSchemeRule v = none) :
    classifyValue v =
      if v.head? = some '[' ∧ v.getLast? = some ']' then
        (if (parseIPv6 (v.drop 1 |>.dropLast)).isSome ∧
            (parseIPv4 (v.drop 1 |>.dropLast)).isNone then some .ipv6 else none)
      else if ipAddressVersion v = some 4 then some .ipv4
      else if matchDomainRule v then some .domain else none := by
  unfold classifyValue
  rw [h, h2]

/-- **C2.** Classification is total (a function of the value, hence exactly
one kind) and follows the precedence regex > scheme > ipv6 > ipv4 > domain
> none: the first surface pattern that matches decides the kind; in
particular the dotted quad `1.2.3.4`, which also matches the domain
pattern, is classified `ipv4`. -/
theorem C2_classification_precedence :
    (∀ v : List Char,
      (∃! k : Option RuleType, classifyValue v = k) ∧
      (regexSurface v → ∃ p f, classifyValue v = some (.regex p f)) ∧
      (¬ regexSurface v → schemeSurface v →
        ∃ n r, classifyValue v = some (.scheme n r)) ∧
      (¬ regexSurface v → ¬ schemeSurface v → ipv6Surface v →
        classifyValue v = some .ipv6) ∧
      (¬ regexSurface v → ¬ schemeSurface v → ¬ ipv6Surface v → ipv4Surface v →
        classifyValue v = some .ipv4) ∧
      (¬ regexSurface v → ¬ schemeSurface v → ¬ ipv6Surface v → ¬ ipv4Surface v →
        domainSurface v → classifyValue v = some .domain) ∧
      (¬ regexSurface v → ¬ schemeSurface v → ¬ ipv6Surface v → ¬ ipv4Surface v →
        ¬ domainSurface v → classifyValue v = none)) ∧
    classifyValue (("1.2.3.4").data) = some .ipv4 ∧
    domainSurface (("1.2.3.4").data) := by
  refine ⟨fun v => ⟨⟨classifyValue v, rfl, fun k hk => hk.symm⟩, ?_, ?_, ?_, ?_, ?_, ?_⟩,
    by decide, by decide⟩
  · intro hr
    cases h : matchRegexRule v with
    | none => rw [regexSurface, h] at hr; simp at hr
    | some pf =>
        refine ⟨pf.1, pf.2, ?_⟩
        unfold classifyValue
        rw [h]
  · intro hnr hs
    cases h : matchRegexRule v with
    | some pf => rw [regexSurface, h] at hnr; simp at hnr
    | none =>
        cases h2 : matchSchemeRule v with
        | none => rw [schemeSurface, h2] at hs; simp at hs
        | some nv =>
            refine ⟨nv.1, nv.2, ?_⟩
            unfold classifyValue
            rw [h, h2]
  · intro hnr hns h6
    obtain ⟨hh, hl, hsome, hnone⟩ := h6
    cases h : matchRegexRule v with
    | some pf => rw [regexSurface, h] at hnr; simp at hnr
    | none =>
        cases h2 : matchSchemeRule v with
        | some nv => rw [schemeSurface, h2] at hns; simp at hns
        | none =>
            rw [classifyValue_of_none h h2, if_pos ⟨hh, hl⟩, if_pos ⟨hsome, hnone⟩]
  · intro hnr hns hn6 h4
    cases h : matchRegexRule v with
    | some pf => rw [regexSurface, h] at hnr; simp at hnr
    | none =>
        cases h2 : matchSchemeRule v with
        | some nv => rw [schemeSurface, h2] at hns; simp at hns
        | none =>
            rw [classifyValue_of_none h h2]
            by_cases hb : v.head? = some '[' ∧ v.getLast? = some ']'
            · exfalso
              have hp4 := ipAddressVersion_four_isSome h4
              cases v with
              | nil => simp at hb
              | cons a t =>
                  have ha : a = '[' := by simpa using hb.1
                  subst ha
                  rw [parseIPv4_eq_none_of_head (by decide)] at hp4
                  simp at hp4
            · have h4' : ipAddressVersion v = some 4 := h4
              rw [if_neg hb, if_pos h4']
  · intro hnr hns hn6 hn4 hd
    cases h : matchRegexRule v with
    | some pf => rw [regexSurface, h] at hnr; simp at hnr
    | none =>
        cases h2 : matchSchemeRule v with
        | some nv => rw [schemeSurface, h2] at hns; simp at hns
        | none =>
            rw [classifyValue_of_none h h2]
            by_cases hb : v.head? = some '[' ∧ v.getLast? = some ']'
            · exfalso
              cases v with
              | nil => simp at hb
              | cons a t =>
                  have ha : a = '[' := by simpa using hb.1
                  subst ha
                  have hd' : matchDomainRule ('[' :: t) = true := hd
                  rw [matchDomainRule_false_of_head (by decide) (by decide)] at hd'
                  exact absurd hd' (by simp)
            · have hn4' : ¬ ipAddressVersion v = some 4 := hn4
              have hd' : matchDomainRule v = true := hd
              rw [if_neg hb, if_neg hn4', if_pos hd']
  · intro hnr hns hn6 hn4 hnd
    cases h : matchRegexRule v with
    | some pf => rw [regexSurface, h] at hnr; simp at hnr
    | none =>
        cases h2 : matchSchemeRule v with
        | some nv => rw [schemeSurface, h2] at hns; simp at hns
        | none =>
            rw [classifyValue_of_none h h2]
            by_cases hb : v.head? = some '[' ∧ v.getLast? = some ']'
            · rw [if_pos hb, if_neg]
              intro hcond
              exact hn6 ⟨hb.1, hb.2, hcond.1, hcond.2⟩
            · have hn4' : ¬ ipAddressVersion v = some 4 := hn4
              have hnd' : ¬ matchDomainRule v = true := hnd
              rw [if_neg hb, if_neg hn4', if_neg hnd']

/-- Witness for C2: the regex clause at `/a/i`, the scheme clause at
`mailto:x`, and the ipv6 clause at `[::1]`. -/
theorem C2_classification_precedence_witness :
    (∃ p f, classifyValue (("/a/i").data) = some (.regex p f)) ∧
    (∃ n r, classifyValue (("mailto:x").data) = some (.scheme n r)) ∧
    classifyValue (("[::1]").data) = some .ipv6 :=
  ⟨(C2_classification_precedence.1 (("/a/i").data)).2.1 (by decide),
   (C2_classification_precedence.1 (("mailto:x").data)).2.2.1 (by decide) (by decide),
   (C2_classification_precedence.1 (("[::1]").data)).2.2.2.1 (by decide) (by decide)
     ⟨by decide, by decide, by decide, by decide⟩⟩

end Build

namespace Build

lemma mem_of_getLast?_eq {l : List Char} {a : Char} (h : l.getLast? = some a) :
    a ∈ l := by
  cases l with
  | nil => simp at h
  | cons x t =>
      rw [List.getLast?_eq_getLast_of_ne_nil (by simp)] at h
      have ha : (x :: t).getLast (by simp) = a := by simpa using h
      rw [← ha]
      exact List.getLast_mem _

lemma pyFullLine_eq_self {v : List Char} (hnl : '\n' ∉ v) :
    pyFullLine v = some v := by
  have hl : ¬ (v.getLast? = some '\n') := fun hl => hnl (mem_of_getLast?_eq hl)
  simp only [pyFullLine]
  rw [if_neg hl, if_neg hnl]

/-- Counterexample to C8 as stated: `a:x` has the claimed shape with a
single-letter scheme name (read as "zero or more" further characters), yet
the classifier assigns kind `none`, because `RE_SCHEME_RULE` requires at
least one character after the leading letter. -/
theorem C8_counterexample : classifyValue (("a:x").data) = none := by decide

/-- **C8 (amended).** For every value `<scheme>:<rest>` where the scheme
name is a lowercase letter followed by **at least one** character drawn
from lowercase alphanumerics and `+.-`, and the remainder contains no
newline, classification assigns kind `scheme` and captures the scheme name
and the remainder (which may be empty). -/
theorem C8_amended_scheme_match (c : Char) (cs rest : List Char)
    (hc : isLowerAlpha c) (hcs : ∀ x ∈ cs, isSchemeChar x) (hne : cs ≠ [])
    (hrest : '\n' ∉ rest) :
    classifyValue (c :: cs ++ ':' :: rest) = some (.scheme (c :: cs) rest) := by
  have hcn : c ≠ '\n' := by rintro rfl; exact absurd hc (by decide)
  have hnlv : '\n' ∉ (c :: cs ++ ':' :: rest) := by
    intro hmem
    rcases List.mem_cons.1 hmem with hx | hmem2
    · exact hcn hx.symm
    rcases List.mem_append.1 hmem2 with hx | hmem3
    · exact absurd (hcs _ hx) (by decide)
    rcases List.mem_cons.1 hmem3 with hx | hx
    · exact absurd hx (by decide)
    · exact hrest hx
  have hpf : pyFullLine (c :: cs ++ ':' :: rest) = some (c :: cs ++ ':' :: rest) :=
    pyFullLine_eq_self hnlv
  have hreg : matchRegexRule (c :: cs ++ ':' :: rest) = none :=
    matchRegexRule_none_of_head (by rintro rfl; exact absurd hc (by decide)) hcn
  have hrun : (cs ++ ':' :: rest).takeWhile isSchemeChar = cs := by
    rw [takeWhile_append_of_all hcs, List.takeWhile_cons, if_neg (by decide)]
    simp
  have hsch : matchSchemeRule (c :: cs ++ ':' :: rest) = some (c :: cs, rest) := by
    unfold matchSchemeRule
    rw [hpf]
    show matchSchemeCore (c :: (cs ++ ':' :: rest)) = some (c :: cs, rest)
    simp only [matchSchemeCore]
    rw [if_pos hc, hrun, if_neg (by simpa using hne), List.drop_left]
    simp
  unfold classifyValue
  rw [hreg, hsch]

/-- Witness for the amended C8 at `mailto:x@y`. -/
theorem C8_amended_scheme_match_witness :
    classifyValue (("mailto:x@y").data) =
      some (.scheme (("mailto").data) (("x@y").data)) :=
  C8_amended_scheme_match 'm' (("ailto").data) (("x@y").data)
    (by decide) (by decide) (by decide) (by decide)

end Build

namespace Build

/-- **C6.** Processors are evaluated in order and at most one is applied:
if none matches the rule, the rule is unchanged, and if `p` is the first
matching processor then the result is exactly `p`'s rewrite — the
processors after `p` never see the rewritten value. -/
theorem C6_first_match_only (r : Rule) :
    (∀ ps : List Processor, (∀ q ∈ ps, procMatches q r = false) →
      processRule r ps = r) ∧
    (∀ (ps₁ : List Processor) (p : Processor) (ps₂ : List Processor),
      (∀ q ∈ ps₁, procMatches q r = false) → procMatches p r = true →
      processRule r (ps₁ ++ p :: ps₂) = applyProcessor p r) := by
  constructor
  · intro ps h
    induction ps with
    | nil => rfl
    | cons q rest ih =>
        simp only [processRule]
        rw [if_neg (by simp [h q (by simp)])]
        exact ih fun q hq => h q (by simp [hq])
  · intro ps₁ p ps₂ hskip hm
    induction ps₁ with
    | nil =>
        show processRule r (p :: ps₂) = applyProcessor p r
        simp only [processRule]
        rw [if_pos hm]
    | cons q rest ih =>
        show processRule r (q :: (rest ++ p :: ps₂)) = applyProcessor p r
        simp only [processRule]
        rw [if_neg (by simp [hskip q (by simp)])]
        exact ih fun q hq => hskip q (by simp [hq])

/-- Witness for C6: of three processors, the second is the first match and
its rewrite is the result. -/
theorem C6_first_match_only_witness :
    processRule (mkRule (("a.b").data))
      [{ ptype := none, find := some (("zz").data), pattern := none,
         replacement := ("r1").data, mode := [] },
       { ptype := some .domain, find := some (("a").data), pattern := none,
         replacement := ("x.y").data, mode := [] },
       { ptype := none, find := none, pattern := none,
         replacement := ("q").data, mode := [] }] =
      applyProcessor
        { ptype := some .domain, find := some (("a").data), pattern := none,
          replacement := ("x.y").data, mode := [] }
        (mkRule (("a.b").data)) :=
  (C6_first_match_only (mkRule (("a.b").data))).2
    [{ ptype := none, find := some (("zz").data), pattern := none,
       replacement := ("r1").data, mode := [] }]
    { ptype := some .domain, find := some (("a").data), pattern := none,
      replacement := ("x.y").data, mode := [] }
    [{ ptype := none, find := none, pattern := none,
       replacement := ("q").data, mode := [] }]
    (by intro q hq; simp at hq; subst hq; decide) (by decide)

/-- **C9.** With a finite max configured, each iteration of the packing
loop strictly shrinks the buffer: when `bsearch` returns a positive prefix
count the loop drops that prefix, otherwise it drops the single leading
item — so the flush terminates on every finite buffer. -/
theorem C9_pack_iteration_decreases {α : Type} (sep tpre tpost : List Char)
    (m : Nat) (items : List (List Char × α)) (hne : items ≠ []) :
    (if (bsearch sep tpre tpost m items).1 > 0 then
        (items.drop (bsearch sep tpre tpost m items).1).length
      else (items.drop 1).length) < items.length := by
  cases items with
  | nil => exact absurd rfl hne
  | cons it rest =>
      by_cases h : (bsearch sep tpre tpost m (it :: rest)).1 > 0
      · rw [if_pos h]
        simp only [List.length_drop, List.length_cons]
        omega
      · rw [if_neg h]
        simp

/-- Witness for C9 on a two-item buffer. -/
theorem C9_pack_iteration_decreases_witness :
    (if (bsearch [','] [] [] 13 [((("aaaaa").data), 0), ((("bbbbb").data), 1)]).1 > 0 then
        ([((("aaaaa").data), 0), ((("bbbbb").data), 1)].drop
          (bsearch [','] [] [] 13 [((("aaaaa").data), 0), ((("bbbbb").data), 1)]).1).length
      else ([((("aaaaa").data), 0), ((("bbbbb").data), 1)].drop 1).length) <
      [((("aaaaa").data), 0), ((("bbbbb").data), 1)].length :=
  C9_pack_iteration_decreases [','] [] [] 13
    [((("aaaaa").data), 0), ((("bbbbb").data), 1)] (by decide)

/-- **C5.** If fetching any declared source of a destination task fails,
the whole task is aborted: nothing is written (the result is `none`) and
rules extracted from sources fetched earlier in the run are discarded. -/
theorem C5_fetch_failure_aborts (sources : List AggSource) (dest : List Char)
    (h : ∃ s ∈ sources, s.fetched = none) :
    runTask sources dest = none := by
  have hcoll : collectRules sources = none := by
    induction sources with
    | nil => simp at h
    | cons a rest ih =>
        obtain ⟨s, hs, hf⟩ := h
        rcases List.mem_cons.1 hs with rfl | hmem
        · unfold collectRules
          rw [hf]
        · unfold collectRules
          cases ha : a.fetched with
          | none => rfl
          | some rs => rw [ih ⟨s, hmem, hf⟩]; rfl
  unfold runTask
  rw [hcoll]

/-- Witness for C5: a two-source task whose second fetch fails writes
nothing. -/
theorem C5_fetch_failure_aborts_witness :
    runTask
      [{ url := ("u1").data,
         fetched := some [{ rule := ("a.b").data, comment := [], path := ("u1").data }] },
       { url := ("u2").data, fetched := none }]
      (("x\n").data) = none :=
  C5_fetch_failure_aborts _ _
    ⟨{ url := ("u2").data, fetched := none }, by simp, rfl⟩

end Build

namespace Build

/-- **C1 (failing).** With max length 10, separator `,`, an empty template
and buffered escaped values `aaaaaaaaaaaaaaaa` (16 chars) and `bb`, the
flush emits the 16-character line even though it exceeds the max, and drops
nothing: `bsearch` returns the last probed position 1 — although position 1
does not fit and position 0 does — so the loop emits the oversized prefix
instead of warning about and dropping the oversized item. -/
theorem C1_overlong_line_emitted :
    (packFlush [','] [] [] 10
        [((("aaaaaaaaaaaaaaaa").data), 0), ((("bb").data), 1)]).1 =
      [(("aaaaaaaaaaaaaaaa").data), (("bb").data)] ∧
    (packFlush [','] [] [] 10
        [((("aaaaaaaaaaaaaaaa").data), 0), ((("bb").data), 1)]).2 = [] ∧
    (bsearch [','] [] [] 10
        [((("aaaaaaaaaaaaaaaa").data), 0), ((("bb").data), 1)]).1 = 1 ∧
    (getJoinedValue [','] [] []
        [((("aaaaaaaaaaaaaaaa").data), 0), ((("bb").data), 1)] 1).length = 16 ∧
    (getJoinedValue [','] [] []
        [((("aaaaaaaaaaaaaaaa").data), 0), ((("bb").data), 1)] 0).length = 0 ∧
    16 > 10 := by
  refine ⟨?_, ?_, ?_, by decide, by decide, by decide⟩ <;>
    simp [packFlush, bsearch, bsearchLoop, getJoinedValue, List.intercalate,
      List.intersperse]

end Build

namespace Build

/-! ## Merge analysis: generic scan lemmas -/

lemma findSome?_range'_eq_none {β : Type} (f : Nat → Option β) (s n : Nat)
    (h : ∀ i, s ≤ i → i < s + n → f i = none) :
    (List.range' s n).findSome? f = none := by
  induction n generalizing s with
  | zero => rfl
  | succ n ih =>
      rw [List.range'_succ, List.findSome?_cons, h s (le_refl s) (by omega)]
      exact ih (s + 1) fun i h1 h2 => h i (by omega) (by omega)

lemma findSome?_range'_eq_some {β : Type} (f : Nat → Option β) (s n i : Nat)
    (b : β) (hsi : s ≤ i) (hlt : i < s + n)
    (hnone : ∀ j, s ≤ j → j < i → f j = none) (hsome : f i = some b) :
    (List.range' s n).findSome? f = some b := by
  induction n generalizing s with
  | zero => omega
  | succ n ih =>
      rw [List.range'_succ, List.findSome?_cons]
      rcases Nat.eq_or_lt_of_le hsi with rfl | hlt2
      · rw [hsome]
      · rw [hnone s (le_refl s) hlt2]
        exact ih (s + 1) hlt2 (by omega) fun j h1 h2 => hnone j (by omega) h2

lemma findBlock_eq_none {url t : List Char}
    (h : ∀ i, i < t.length → fullMatchAt url t i = none) :
    findBlock url t = none := by
  unfold findBlock
  exact findSome?_range'_eq_none _ 0 t.length fun i _ h2 => by
    rw [h i (by omega)]; rfl

lemma findBlock_eq_some {url t : List Char} {i en : Nat}
    (hlt : i < t.length)
    (hnone : ∀ j, j < i → fullMatchAt url t j = none)
    (hm : fullMatchAt url t i = some en) :
    findBlock url t = some (i, en) := by
  unfold findBlock
  refine findSome?_range'_eq_some _ 0 t.length i (i, en) (Nat.zero_le i) (by omega)
    (fun j _ h2 => by rw [hnone j h2]; rfl) (by rw [hm]; rfl)

lemma findBodyEnd_eq_some {t : List Char} {h e : Nat}
    (hhe : h ≤ e) (hlt : e < t.length)
    (hnone : ∀ j, h ≤ j → j < e → bodyEndCond t j = false)
    (hc : bodyEndCond t e = true) :
    findBodyEnd t h = some e := by
  unfold findBodyEnd
  refine findSome?_range'_eq_some _ h (t.length - h) e e hhe (by omega)
    (fun j h1 h2 => by rw [if_neg (by rw [hnone j h1 h2]; simp)]) (by rw [if_pos hc])

/-! ## Merge analysis: header-match shape lemmas -/

lemma matchHeaderAt_none_of_not_lineStart {url t : List Char} {i : Nat}
    (h : lineStartAt t i = false) : matchHeaderAt url t i = none := by
  unfold matchHeaderAt
  rw [if_neg (by simp [h])]

lemma lineStartAt_false_of_prev {t : List Char} {i : Nat} {c : Char}
    (hip : i ≠ 0) (h : t[i - 1]? = some c) (hc : c ≠ '\n') :
    lineStartAt t i = false := by
  unfold lineStartAt
  simp only [decide_eq_false_iff_not]
  push_neg
  refine ⟨hip, ?_⟩
  rw [h]
  simp [hc]

lemma wsRunLen_eq_zero {t : List Char} {i : Nat} {c : Char}
    (h : t[i]? = some c) (hc : isPySpace c = false) : wsRunLen t i = 0 := by
  unfold wsRunLen
  have hh : (t.drop i).head? = some c := by rw [List.head?_drop, h]
  cases hd : t.drop i with
  | nil => simp [hd]
  | cons a l =>
      rw [hd] at hh
      simp only [List.head?_cons, Option.some.injEq] at hh
      subst hh
      rw [List.takeWhile_cons, if_neg (by simp [hc])]
      rfl

lemma matchHeaderAt_none_of_run0 {url t : List Char} {i : Nat} {c : Char}
    (h : t[i]? = some c) (hc : isPySpace c = false) :
    matchHeaderAt url t i = none := by
  unfold matchHeaderAt
  by_cases hls : lineStartAt t i
  · rw [if_pos hls, if_pos (wsRunLen_eq_zero h hc)]
  · rw [if_neg hls]

end Build

namespace Build

lemma wsRunLen_of_shape {t ws X : List Char} {i : Nat}
    (hd : t.drop i = ws ++ X) (hws : ∀ c ∈ ws, isPySpace c)
    (hX : ∀ c, X.head? = some c → ¬ isPySpace c) :
    wsRunLen t i = ws.length := by
  unfold wsRunLen
  rw [hd, takeWhile_append_of_all hws, takeWhile_eq_nil_of_head hX, List.append_nil]

end Build

namespace Build

lemma append_nl_prefix_iff {u u' X : List Char} (hu : '\n' ∉ u) (hu' : '\n' ∉ u') :
    (u ++ ['\n'] <+: u' ++ '\n' :: X) ↔ u = u' := by
  induction u generalizing u' with
  | nil =>
      cases u' with
      | nil => simp
      | cons b t' =>
          simp only [List.nil_append, List.cons_append]
          constructor
          · intro h
            rw [List.cons_prefix_cons] at h
            exact absurd (by rw [h.1]; exact List.mem_cons_self b t' : ('\n' : Char) ∈ b :: t') hu'
          · intro h
            simp at h
  | cons a t ih =>
      cases u' with
      | nil =>
          simp only [List.cons_append, List.nil_append]
          constructor
          · intro h
            rw [List.cons_prefix_cons] at h
            exact absurd (by rw [← h.1]; exact List.mem_cons_self a t : ('\n' : Char) ∈ a :: t) hu
          · intro h
            simp at h
      | cons b t' =>
          simp only [List.cons_append]
          rw [List.cons_prefix_cons]
          have hu2 : '\n' ∉ t := fun hx => hu (List.mem_cons_of_mem a hx)
          have hu2' : '\n' ∉ t' := fun hx => hu' (List.mem_cons_of_mem b hx)
          constructor
          · rintro ⟨rfl, h2⟩
            rw [(ih hu2 hu2').1 h2]
          · intro h
            obtain ⟨h1, h2⟩ : a = b ∧ t = t' := by
              injection h with h1 h2
              exact ⟨h1, h2⟩
            subst h1
            subst h2
            exact ⟨rfl, (ih hu2 hu2').2 rfl⟩

lemma headerLit_prefix_iff {u u' X : List Char} (hu : '\n' ∉ u) (hu' : '\n' ∉ u') :
    (headerLit u <+: headerLit u' ++ X) ↔ u = u' := by
  unfold headerLit
  have h1 : ("#!aggregated source: ").data ++ u ++ ['\n'] =
      ("#!aggregated source: ").data ++ (u ++ ['\n']) := by
    rw [List.append_assoc]
  have h2 : (("#!aggregated source: ").data ++ u' ++ ['\n']) ++ X =
      ("#!aggregated source: ").data ++ (u' ++ '\n' :: X) := by
    rw [List.append_assoc, List.append_assoc]
    rfl
  rw [h1, h2, List.prefix_append_right_inj]
  exact append_nl_prefix_iff hu hu'

end Build

namespace Build

lemma blk_eq (u body : List Char) :
    blkText u body = hdrPre u ++ '\n' :: body := by
  unfold blkText headerLit hdrPre
  simp [List.append_assoc]

lemma nl_not_mem_hdrPre {u : List Char} (hu : '\n' ∉ u) : '\n' ∉ hdrPre u := by
  unfold hdrPre
  intro h
  rcases List.mem_append.1 h with h2 | h2
  · rcases List.mem_append.1 h2 with h3 | h3
    · exact absurd h3 (by decide)
    · exact absurd h3 (by decide)
  · exact hu h2

lemma matchHeaderAt_some_of_sep_shape {url t X : List Char} {p : Nat}
    (hls : lineStartAt t p = true)
    (hd : t.drop p = '\n' :: (("  ").data ++ headerLit url ++ X)) :
    matchHeaderAt url t p = some (p + 3 + (headerLit url).length) := by
  have hd2 : t.drop p = ['\n', ' ', ' '] ++ (headerLit url ++ X) := by
    rw [hd]; rfl
  have hw : wsRunLen t p = 3 :=
    wsRunLen_of_shape hd2 (by decide)
      (fun c hc => by
        have : (headerLit url ++ X).head? = some '#' := rfl
        rw [this] at hc
        cases hc
        decide)
  unfold matchHeaderAt
  rw [if_pos (by simp [hls]), if_neg (by rw [hw]; decide), hw]
  have hdrop3 : t.drop (p + 3) = headerLit url ++ X := by
    rw [← List.drop_drop, hd2]
    rfl
  rw [if_pos]
  rw [hdrop3]
  exact List.isPrefixOf_iff_prefix.2 (List.prefix_append _ _)

lemma matchHeaderAt_none_of_sep_shape {url u t X : List Char} {p : Nat}
    (hne : u ≠ url) (hnlu : '\n' ∉ u) (hnlurl : '\n' ∉ url)
    (hd : t.drop p = '\n' :: (("  ").data ++ headerLit u ++ X)) :
    matchHeaderAt url t p = none := by
  unfold matchHeaderAt
  by_cases hls : lineStartAt t p
  · rw [if_pos hls]
    have hd2 : t.drop p = ['\n', ' ', ' '] ++ (headerLit u ++ X) := by
      rw [hd]; rfl
    have hw : wsRunLen t p = 3 :=
      wsRunLen_of_shape hd2 (by decide)
        (fun c hc => by
          have : (headerLit u ++ X).head? = some '#' := rfl
          rw [this] at hc
          cases hc
          decide)
    rw [if_neg (by rw [hw]; decide), hw]
    have hdrop3 : t.drop (p + 3) = headerLit u ++ X := by
      rw [← List.drop_drop, hd2]
      rfl
    rw [if_neg]
    rw [hdrop3, List.isPrefixOf_iff_prefix]
    intro hpre
    exact hne ((headerLit_prefix_iff hnlurl hnlu).1 hpre).symm
  · rw [if_neg hls]

lemma matchHeaderAt_some_of_start_shape {url t X : List Char} {p : Nat}
    (hls : lineStartAt t p = true)
    (hd : t.drop p = ("  ").data ++ headerLit url ++ X) :
    matchHeaderAt url t p = some (p + 2 + (headerLit url).length) := by
  have hd2 : t.drop p = [' ', ' '] ++ (headerLit url ++ X) := by
    rw [hd]; rfl
  have hw : wsRunLen t p = 2 :=
    wsRunLen_of_shape hd2 (by decide)
      (fun c hc => by
        have : (headerLit url ++ X).head? = some '#' := rfl
        rw [this] at hc
        cases hc
        decide)
  unfold matchHeaderAt
  rw [if_pos (by simp [hls]), if_neg (by rw [hw]; decide), hw]
  have hdrop2 : t.drop (p + 2) = headerLit url ++ X := by
    rw [← List.drop_drop, hd2]
    rfl
  rw [if_pos]
  rw [hdrop2]
  exact List.isPrefixOf_iff_prefix.2 (List.prefix_append _ _)

lemma matchHeaderAt_none_of_start_shape {url u t X : List Char} {p : Nat}
    (hne : u ≠ url) (hnlu : '\n' ∉ u) (hnlurl : '\n' ∉ url)
    (hd : t.drop p = ("  ").data ++ headerLit u ++ X) :
    matchHeaderAt url t p = none := by
  unfold matchHeaderAt
  by_cases hls : lineStartAt t p
  · rw [if_pos hls]
    have hd2 : t.drop p = [' ', ' '] ++ (headerLit u ++ X) := by
      rw [hd]; rfl
    have hw : wsRunLen t p = 2 :=
      wsRunLen_of_shape hd2 (by decide)
        (fun c hc => by
          have : (headerLit u ++ X).head? = some '#' := rfl
          rw [this] at hc
          cases hc
          decide)
    rw [if_neg (by rw [hw]; decide), hw]
    have hdrop2 : t.drop (p + 2) = headerLit u ++ X := by
      rw [← List.drop_drop, hd2]
      rfl
    rw [if_neg]
    rw [hdrop2, List.isPrefixOf_iff_prefix]
    intro hpre
    exact hne ((headerLit_prefix_iff hnlurl hnlu).1 hpre).symm
  · rw [if_neg hls]

lemma aggMarkerAt_of_sep_shape {t : List Char} {p : Nat} {u X : List Char}
    (hls : lineStartAt t p = true)
    (hd : t.drop p = '\n' :: (("  ").data ++ headerLit u ++ X)) :
    aggMarkerAt t p = true := by
  have hd2 : t.drop p = ['\n', ' ', ' '] ++ (headerLit u ++ X) := by
    rw [hd]; rfl
  have hw : wsRunLen t p = 3 :=
    wsRunLen_of_shape hd2 (by decide)
      (fun c hc => by
        have : (headerLit u ++ X).head? = some '#' := rfl
        rw [this] at hc
        cases hc
        decide)
  have hdrop3 : t.drop (p + 3) = headerLit u ++ X := by
    rw [← List.drop_drop, hd2]
    rfl
  have hpre : (("#!aggregated").data).isPrefixOf (t.drop (p + 3)) := by
    rw [hdrop3, List.isPrefixOf_iff_prefix]
    have : headerLit u ++ X = ("#!aggregated").data ++ ((" source: ").data ++ u ++ ['\n'] ++ X) := by
      unfold headerLit
      have : ("#!aggregated source: ").data = ("#!aggregated").data ++ (" source: ").data := by
        decide
      rw [this]
      simp [List.append_assoc]
    rw [this]
    exact List.prefix_append _ _
  have hafter : t[p + 3 + 12]? = some ' ' := by
    have h1 : t[p + (3 + 12)]? = (t.drop p)[3 + 12]? := (List.getElem?_drop t p (3 + 12)).symm
    have h2 : (t.drop p)[15]? = some ' ' := by
      rw [hd2]
      rfl
    rw [show p + 3 + 12 = p + (3 + 12) from by omega, h1]
    exact h2
  unfold aggMarkerAt
  rw [decide_eq_true_eq]
  refine ⟨by simp [hls], ?_⟩
  show wsRunLen t p ≠ 0 ∧
    ((("#!aggregated").data).isPrefixOf (t.drop (p + wsRunLen t p)) = true ∧
      ¬ (t[p + wsRunLen t p + 12]?).any isWordChar = true)
  rw [hw]
  exact ⟨by decide, hpre, by rw [hafter]; decide⟩

end Build

namespace Build

/-! ## Chain algebra -/

lemma linesText_cons (l : List Char) (ls : List (List Char)) :
    linesText (l :: ls) = (l ++ ['\n']) ++ linesText ls := by
  unfold linesText
  simp

lemma linesText_ends_nl {ls : List (List Char)} (hne : ls ≠ []) :
    ∃ Y, linesText ls = Y ++ ['\n'] := by
  induction ls with
  | nil => exact absurd rfl hne
  | cons l ls ih =>
      cases ls with
      | nil => exact ⟨l, by simp [linesText]⟩
      | cons l2 ls2 =>
          obtain ⟨Y, hY⟩ := ih (by simp)
          exact ⟨l ++ ['\n'] ++ Y, by rw [linesText_cons, hY]; simp⟩

lemma tailBlocks_cons (o : List Char) (outs : List (List Char)) :
    tailBlocks (o :: outs) = '\n' :: (o ++ tailBlocks outs) := by
  unfold tailBlocks
  simp

lemma tailBlocks_append (o1 o2 : List (List Char)) :
    tailBlocks (o1 ++ o2) = tailBlocks o1 ++ tailBlocks o2 := by
  unfold tailBlocks
  simp

lemma chainState_cons (t0 o : List Char) (outs : List (List Char)) :
    chainState t0 (o :: outs) = chainState (appendOut t0 o) outs := rfl

lemma chainState_append (t0 : List Char) (o1 o2 : List (List Char)) :
    chainState t0 (o1 ++ o2) = chainState (chainState t0 o1) o2 := by
  unfold chainState
  rw [List.foldl_append]

lemma appendOut_of_ne_nil {t0 : List Char} (o : List Char) (h : t0 ≠ []) :
    appendOut t0 o = t0 ++ '\n' :: o := by
  unfold appendOut
  rw [if_neg (by simpa using h)]
  simp

lemma appendOut_nil (o : List Char) : appendOut [] o = o := rfl

lemma chainState_eq_of_ne_nil {t0 : List Char} (outs : List (List Char)) (h : t0 ≠ []) :
    chainState t0 outs = t0 ++ tailBlocks outs := by
  induction outs generalizing t0 with
  | nil => simp [chainState, tailBlocks]
  | cons o rest ih =>
      rw [chainState_cons, appendOut_of_ne_nil o h, ih (by simp), tailBlocks_cons]
      simp

lemma chainState_nil_cons (o : List Char) (outs : List (List Char)) (ho : o ≠ []) :
    chainState [] (o :: outs) = o ++ tailBlocks outs := by
  rw [chainState_cons, appendOut_nil]
  exact chainState_eq_of_ne_nil outs ho

lemma blkText_ne_nil (u body : List Char) : blkText u body ≠ [] := by
  unfold blkText
  simp

lemma blkText_length (u body : List Char) :
    (blkText u body).length = 2 + (headerLit u).length + body.length := by
  unfold blkText
  simp [List.length_append]
  omega

end Build

namespace Build

/-! ## Position bookkeeping helpers -/

lemma getElem?_append_offset {C Z : List Char} (k : Nat) :
    (C ++ Z)[C.length + k]? = Z[k]? := by
  rw [List.getElem?_append_right (by omega)]
  congr 1
  omega

lemma drop_append_offset {C Z : List Char} (k : Nat) :
    (C ++ Z).drop (C.length + k) = Z.drop k := by
  rw [← List.drop_drop, List.drop_left]

/-! ## No header match inside a run of body lines -/

lemma matchHeaderAt_none_in_lines {url : List Char} (ls : List (List Char))
    (hgood : ∀ l ∈ ls, goodLine l) :
    ∀ (C R : List Char) (k : Nat), k < (linesText ls).length →
      matchHeaderAt url (C ++ (linesText ls ++ R)) (C.length + k) = none := by
  induction ls with
  | nil =>
      intro C R k hk
      simp [linesText] at hk
  | cons l ls ih =>
      intro C R k hk
      obtain ⟨hlne, hlnl, hlhead⟩ := hgood l (by simp)
      rw [linesText_cons, List.length_append] at hk
      by_cases hk1 : k < l.length + 1
      · rcases Nat.eq_zero_or_pos k with rfl | hkpos
        · obtain ⟨c, l', rfl⟩ : ∃ c l', l = c :: l' := by
            cases l with
            | nil => exact absurd rfl hlne
            | cons c l' => exact ⟨c, l', rfl⟩
          refine matchHeaderAt_none_of_run0 (c := c) ?_ ?_
          · rw [Nat.add_zero]
            have := getElem?_append_offset (C := C)
              (Z := linesText ((c :: l') :: ls) ++ R) 0
            rw [Nat.add_zero] at this
            rw [this, linesText_cons]
            simp
          · have := hlhead c rfl
            simpa using this
        · apply matchHeaderAt_none_of_not_lineStart
          have hb : k - 1 < l.length := by omega
          obtain ⟨cx, hcx⟩ : ∃ cx, l[k - 1]? = some cx :=
            ⟨_, List.getElem?_eq_getElem hb⟩
          refine lineStartAt_false_of_prev (c := cx) (by omega) ?_ ?_
          · rw [show C.length + k - 1 = C.length + (k - 1) from by omega,
              getElem?_append_offset, linesText_cons, List.append_assoc,
              List.getElem?_append_left (by simp; omega),
              List.getElem?_append_left hb]
            exact hcx
          · intro hc
            exact hlnl (by rw [← hc]; exact List.getElem?_mem hcx)
      · have hrw : C ++ (linesText (l :: ls) ++ R) =
            (C ++ (l ++ ['\n'])) ++ (linesText ls ++ R) := by
          rw [linesText_cons]
          simp [List.append_assoc]
        have hk2 : l.length + 1 ≤ k := by omega
        have hidx : C.length + k =
            (C ++ (l ++ ['\n'])).length + (k - (l.length + 1)) := by
          simp only [List.length_append, List.length_cons, List.length_nil]
          omega
        rw [hrw, hidx]
        have hlen3 : (l ++ ['\n']).length = l.length + 1 := by simp
        exact ih (fun l2 h2 => hgood l2 (by simp [h2])) _ _ _ (by omega)

lemma matchHeaderAt_none_in_blkTail {url u : List Char} {ls : List (List Char)}
    (hnlu : '\n' ∉ u) (hgood : ∀ l ∈ ls, goodLine l) (C R : List Char) :
    ∀ k, 1 ≤ k → k < (blkText u (linesText ls)).length →
      matchHeaderAt url (C ++ (blkText u (linesText ls) ++ R)) (C.length + k) = none := by
  intro k hk1 hk2
  rw [blk_eq] at hk2 ⊢
  have hlb : (hdrPre u ++ '\n' :: linesText ls).length =
      (hdrPre u).length + 1 + (linesText ls).length := by
    simp
    omega
  by_cases hk3 : k ≤ (hdrPre u).length
  · apply matchHeaderAt_none_of_not_lineStart
    have hb : k - 1 < (hdrPre u).length := by omega
    obtain ⟨cx, hcx⟩ : ∃ cx, (hdrPre u)[k - 1]? = some cx :=
      ⟨_, List.getElem?_eq_getElem hb⟩
    refine lineStartAt_false_of_prev (c := cx) (by omega) ?_ ?_
    · rw [show C.length + k - 1 = C.length + (k - 1) from by omega,
        getElem?_append_offset, List.append_assoc,
        List.getElem?_append_left hb]
      exact hcx
    · intro hc
      exact (nl_not_mem_hdrPre hnlu) (by rw [← hc]; exact List.getElem?_mem hcx)
  · have hrw : C ++ ((hdrPre u ++ '\n' :: linesText ls) ++ R) =
        (C ++ (hdrPre u ++ ['\n'])) ++ (linesText ls ++ R) := by
      simp [List.append_assoc]
    have hidx : C.length + k =
        (C ++ (hdrPre u ++ ['\n'])).length + (k - ((hdrPre u).length + 1)) := by
      simp only [List.length_append, List.length_cons, List.length_nil]
      omega
    rw [hrw, hidx]
    exact matchHeaderAt_none_in_lines ls hgood _ _ _ (by omega)

lemma matchHeaderAt_none_in_sepBlock {url u : List Char} {ls : List (List Char)}
    (C R : List Char)
    (hne : u ≠ url) (hnlu : '\n' ∉ u) (hnlurl : '\n' ∉ url)
    (hgood : ∀ l ∈ ls, goodLine l) :
    ∀ k, k < ('\n' :: blkText u (linesText ls)).length →
      matchHeaderAt url (C ++ (('\n' :: blkText u (linesText ls)) ++ R))
        (C.length + k) = none := by
  intro k hk
  have hshape : ('\n' :: blkText u (linesText ls)) ++ R =
      '\n' :: (("  ").data ++ headerLit u ++ (linesText ls ++ R)) := by
    unfold blkText
    simp [List.append_assoc]
  rcases Nat.eq_zero_or_pos k with rfl | hkpos
  · apply matchHeaderAt_none_of_sep_shape hne hnlu hnlurl (X := linesText ls ++ R)
    rw [Nat.add_zero, List.drop_left, hshape]
  · rcases Nat.eq_or_lt_of_le hkpos with hk1 | hk2
    · apply matchHeaderAt_none_of_start_shape hne hnlu hnlurl (X := linesText ls ++ R)
      rw [← hk1, show C.length + 1 = C.length + 1 from rfl]
      have : (C ++ (('\n' :: blkText u (linesText ls)) ++ R)).drop (C.length + 1) =
          (('\n' :: blkText u (linesText ls)) ++ R).drop 1 := drop_append_offset 1
      rw [this, hshape]
      rfl
    · have hrw : C ++ (('\n' :: blkText u (linesText ls)) ++ R) =
          (C ++ ['\n']) ++ (blkText u (linesText ls) ++ R) := by
        simp
      have hidx : C.length + k = (C ++ ['\n']).length + (k - 1) := by
        simp
        omega
      rw [hrw, hidx]
      refine matchHeaderAt_none_in_blkTail hnlu hgood _ _ _ (by omega) ?_
      have := hk
      simp only [List.length_cons] at this
      omega

lemma matchHeaderAt_none_in_block0 {url u : List Char} {ls : List (List Char)}
    (R : List Char)
    (hne : u ≠ url) (hnlu : '\n' ∉ u) (hnlurl : '\n' ∉ url)
    (hgood : ∀ l ∈ ls, goodLine l) :
    ∀ k, k < (blkText u (linesText ls)).length →
      matchHeaderAt url (blkText u (linesText ls) ++ R) k = none := by
  intro k hk
  have hshape : blkText u (linesText ls) ++ R =
      ("  ").data ++ headerLit u ++ (linesText ls ++ R) := by
    unfold blkText
    simp [List.append_assoc]
  rcases Nat.eq_zero_or_pos k with rfl | hkpos
  · apply matchHeaderAt_none_of_start_shape hne hnlu hnlurl (X := linesText ls ++ R)
    rw [List.drop_zero, hshape]
  · have hrw : blkText u (linesText ls) ++ R =
        ([] : List Char) ++ (blkText u (linesText ls) ++ R) := by simp
    have hidx : k = ([] : List Char).length + k := by simp
    rw [hrw, hidx]
    exact matchHeaderAt_none_in_blkTail hnlu hgood _ _ _ hkpos hk

lemma takeWhile_append_of_exists_not {p : Char → Bool} {l₁ l₂ : List Char}
    (h : ∃ x ∈ l₁, ¬ p x) : (l₁ ++ l₂).takeWhile p = l₁.takeWhile p := by
  induction l₁ with
  | nil => simp at h
  | cons a l ih =>
      by_cases hpa : p a
      · rw [List.cons_append, List.takeWhile_cons, if_pos (by simp [hpa]),
          List.takeWhile_cons, if_pos (by simp [hpa])]
        obtain ⟨x, hx, hpx⟩ := h
        rcases List.mem_cons.1 hx with rfl | hx2
        · exact absurd hpa hpx
        · rw [ih ⟨x, hx2, hpx⟩]
      · rw [List.cons_append, List.takeWhile_cons, if_neg (by simpa using hpa),
          List.takeWhile_cons, if_neg (by simpa using hpa)]

lemma length_takeWhile_lt_of_exists_not {p : Char → Bool} {l : List Char}
    (h : ∃ x ∈ l, ¬ p x) : (l.takeWhile p).length < l.length := by
  induction l with
  | nil => simp at h
  | cons a l ih =>
      by_cases hpa : p a
      · rw [List.takeWhile_cons, if_pos (by simp [hpa])]
        obtain ⟨x, hx, hpx⟩ := h
        rcases List.mem_cons.1 hx with rfl | hx2
        · exact absurd hpa hpx
        · simpa using ih ⟨x, hx2, hpx⟩
      · rw [List.takeWhile_cons, if_neg (by simpa using hpa)]
        simp

lemma prefix_getElem?_eq {l₁ l₂ : List Char} (h : l₁ <+: l₂) {i : Nat}
    (hi : i < l₁.length) : l₂[i]? = l₁[i]? := by
  obtain ⟨T, rfl⟩ := h
  rw [List.getElem?_append_left hi]

lemma marker_prefix_headerLit (u : List Char) (X : List Char) :
    ("#!aggregated").data <+: headerLit u ++ X := by
  have h1 : headerLit u ++ X =
      ("#!aggregated").data ++ ((" source: ").data ++ u ++ ['\n'] ++ X) := by
    unfold headerLit
    have h2 : ("#!aggregated source: ").data =
        ("#!aggregated").data ++ (" source: ").data := by decide
    rw [h2]
    simp [List.append_assoc]
  rw [h1]
  exact List.prefix_append _ _

/-- No header match starts inside clean destination text, whatever
continuation follows it (empty, or beginning with the separator newline). -/
lemma matchHeaderAt_none_in_clean {url t R : List Char} (hclean : cleanDest t)
    (hR : R = [] ∨ R.head? = some '\n') :
    ∀ i, i < t.length → matchHeaderAt url (t ++ R) i = none := by
  intro i hi
  obtain ⟨hend, hnows, hnomark⟩ := hclean
  by_cases hls : lineStartAt (t ++ R) i = true
  swap
  · exact matchHeaderAt_none_of_not_lineStart (by simpa using hls)
  have hlst : lineStartAt t i = true := by
    unfold lineStartAt at hls ⊢
    rw [decide_eq_true_eq] at hls ⊢
    rcases hls with h0 | hprev
    · exact Or.inl h0
    · refine Or.inr ?_
      rwa [List.getElem?_append_left (by omega)] at hprev
  obtain ⟨c, hcmem, hcns⟩ := hnows i hi hlst
  have hdropTR : (t ++ R).drop i = t.drop i ++ R :=
    List.drop_append_of_le_length (by omega)
  have hex : ∃ x ∈ t.drop i, ¬ isPySpace x := ⟨c, hcmem, by simpa using hcns⟩
  have hw : wsRunLen (t ++ R) i = ((t.drop i).takeWhile isPySpace).length := by
    unfold wsRunLen
    rw [hdropTR, takeWhile_append_of_exists_not hex]
  have hwlt : wsRunLen (t ++ R) i < (t.drop i).length := by
    rw [hw]
    exact length_takeWhile_lt_of_exists_not hex
  have hiw : i + wsRunLen (t ++ R) i < t.length := by
    have := List.length_drop i t
    omega
  unfold matchHeaderAt
  rw [if_pos (by simp [hls])]
  by_cases hw0 : wsRunLen (t ++ R) i = 0
  · rw [if_pos hw0]
  · rw [if_neg hw0, if_neg]
    intro hpre
    rw [List.isPrefixOf_iff_prefix] at hpre
    have hdrop2 : (t ++ R).drop (i + wsRunLen (t ++ R) i) =
        t.drop (i + wsRunLen (t ++ R) i) ++ R :=
      List.drop_append_of_le_length (by omega)
    rw [hdrop2] at hpre
    have hmk : ("#!aggregated").data <+: headerLit url := by
      have := marker_prefix_headerLit url []
      rwa [List.append_nil] at this
    have h12 := hmk.trans hpre
    by_cases hlen : 12 ≤ (t.drop (i + wsRunLen (t ++ R) i)).length
    · have hsub : ("#!aggregated").data <+: t.drop (i + wsRunLen (t ++ R) i) :=
        List.prefix_of_prefix_length_le h12
          (List.prefix_append _ R) (by simpa using hlen)
      exact hnomark _ (List.isPrefixOf_iff_prefix.2 hsub)
    · push_neg at hlen
      have hmlen : (("#!aggregated").data).length = 12 := by decide
      have hle : (12 : Nat) ≤ (t.drop (i + wsRunLen (t ++ R) i)).length + R.length := by
        have hle0 := h12.length_le
        rw [List.length_append, hmlen] at hle0
        exact hle0
      have hRne : R ≠ [] := by
        intro hR0
        have hRlen : R.length = 0 := by rw [hR0]; rfl
        omega
      have hRhead : R.head? = some '
' := hR.resolve_left hRne
      have h1 : (t.drop (i + wsRunLen (t ++ R) i) ++ R)[(t.drop (i + wsRunLen (t ++ R) i)).length]? =
          some '
' := by
        rw [List.getElem?_append_right (le_refl _), Nat.sub_self,
          ← List.head?_eq_getElem?]
        exact hRhead
      have h2 : (t.drop (i + wsRunLen (t ++ R) i) ++ R)[(t.drop (i + wsRunLen (t ++ R) i)).length]? =
          (("#!aggregated").data)[(t.drop (i + wsRunLen (t ++ R) i)).length]? :=
        prefix_getElem?_eq h12 (by simpa using hlen)
      rw [h1] at h2
      have hnever : ∀ d, d < 12 → ¬ ((("#!aggregated").data)[d]? = some '
') := by
        decide
      exact hnever _ hlen h2.symm

lemma fullMatchAt_none_of_header {url t : List Char} {i : Nat}
    (h : matchHeaderAt url t i = none) : fullMatchAt url t i = none := by
  unfold fullMatchAt
  rw [h]

lemma bodyEndCond_false_of_char {t : List Char} {e : Nat} {c : Char}
    (h : t[e]? = some c) (hc : c ≠ '\n') : bodyEndCond t e = false := by
  simp only [bodyEndCond, decide_eq_false_iff_not]
  rintro ⟨h1, -⟩
  rw [h] at h1
  exact hc (by injection h1)

lemma aggMarkerAt_false_of_run0 {t : List Char} {p : Nat} {c : Char}
    (h : t[p]? = some c) (hc : isPySpace c = false) :
    aggMarkerAt t p = false := by
  simp only [aggMarkerAt, decide_eq_false_iff_not]
  intro hfull
  obtain ⟨h1, h2⟩ := hfull
  have h2' : wsRunLen t p ≠ 0 ∧
      ((("#!aggregated").data).isPrefixOf (t.drop (p + wsRunLen t p)) = true ∧
        ¬ (t[p + wsRunLen t p + 12]?).any isWordChar = true) := h2
  exact h2'.1 (wsRunLen_eq_zero h hc)

lemma linesText_length_pos {ls : List (List Char)} (hne : ls ≠ []) :
    0 < (linesText ls).length := by
  cases ls with
  | nil => exact absurd rfl hne
  | cons l ls =>
      rw [linesText_cons]
      simp

lemma bodyEndCond_false_in_lines {ls : List (List Char)}
    (hgood : ∀ l ∈ ls, goodLine l) :
    ∀ (C R : List Char) (k : Nat), k + 1 < (linesText ls).length →
      bodyEndCond (C ++ (linesText ls ++ R)) (C.length + k) = false := by
  induction ls with
  | nil =>
      intro C R k hk
      simp [linesText] at hk
  | cons l ls ih =>
      intro C R k hk
      rw [linesText_cons, List.length_append] at hk
      have hlen1 : (l ++ ['\n']).length = l.length + 1 := by simp
      by_cases hkl : k < l.length
      · obtain ⟨cx, hcx⟩ : ∃ cx, l[k]? = some cx := ⟨_, List.getElem?_eq_getElem hkl⟩
        refine bodyEndCond_false_of_char (c := cx) ?_ ?_
        · rw [getElem?_append_offset, linesText_cons, List.append_assoc,
            List.getElem?_append_left (by simp; omega),
            List.getElem?_append_left hkl]
          exact hcx
        · intro hcnl
          exact ((hgood l (by simp)).2.1) (by rw [← hcnl]; exact List.getElem?_mem hcx)
      · by_cases hke : k = l.length
        · subst hke
          have hlsne : ls ≠ [] := by
            intro h0
            rw [h0] at hk
            simp [linesText] at hk
          obtain ⟨l2, ls2, rfl⟩ : ∃ l2 ls2, ls = l2 :: ls2 := by
            cases ls with
            | nil => exact absurd rfl hlsne
            | cons l2 ls2 => exact ⟨l2, ls2, rfl⟩
          obtain ⟨hl2ne, hl2nl, hl2head⟩ := hgood l2 (by simp)
          obtain ⟨c2, l2', rfl⟩ : ∃ c2 l2', l2 = c2 :: l2' := by
            cases l2 with
            | nil => exact absurd rfl hl2ne
            | cons c2 l2' => exact ⟨c2, l2', rfl⟩
          simp only [bodyEndCond, decide_eq_false_iff_not]
          rintro ⟨-, h2⟩
          have hnext : (C ++ (linesText (l :: (c2 :: l2') :: ls2) ++ R))[C.length + l.length + 1]? =
              some c2 := by
            rw [show C.length + l.length + 1 = C.length + (l.length + 1) from by omega,
              getElem?_append_offset, linesText_cons, List.append_assoc,
              List.getElem?_append_right (by simp),
              show l.length + 1 - (l ++ ['\n']).length = 0 from by simp]
            rw [linesText_cons]
            simp
          rcases h2 with h2 | h2
          · have e1 : (C ++ (linesText (l :: (c2 :: l2') :: ls2) ++ R)).length =
                C.length + ((linesText (l :: (c2 :: l2') :: ls2)).length + R.length) := by
              simp [List.length_append]
            have e2 : (linesText (l :: (c2 :: l2') :: ls2)).length =
                (l.length + 1) + (linesText ((c2 :: l2') :: ls2)).length := by
              rw [linesText_cons, List.length_append]
              simp
            have e3 : 0 < (linesText ((c2 :: l2') :: ls2)).length :=
              linesText_length_pos (by simp)
            omega
          · rw [aggMarkerAt_false_of_run0 hnext
              (by simpa using hl2head c2 rfl)] at h2
            exact Bool.false_ne_true h2
        · have hk2 : l.length + 1 ≤ k := by omega
          have hrw : C ++ (linesText (l :: ls) ++ R) =
              (C ++ (l ++ ['\n'])) ++ (linesText ls ++ R) := by
            rw [linesText_cons]
            simp [List.append_assoc]
          have hidx : C.length + k =
              (C ++ (l ++ ['\n'])).length + (k - (l.length + 1)) := by
            simp only [List.length_append, List.length_cons, List.length_nil]
            omega
          rw [hrw, hidx]
          exact ih (fun l2 h2 => hgood l2 (by simp [h2])) _ _ _ (by omega)

lemma bodyEndCond_true_at_end {ls : List (List Char)} (hne : ls ≠ [])
    (C R : List Char)
    (hcond : C.length + (linesText ls).length =
        (C ++ (linesText ls ++ R)).length ∨
      aggMarkerAt (C ++ (linesText ls ++ R))
        (C.length + (linesText ls).length) = true) :
    bodyEndCond (C ++ (linesText ls ++ R))
      (C.length + ((linesText ls).length - 1)) = true := by
  obtain ⟨Y, hY⟩ := linesText_ends_nl hne
  have hYlen : (linesText ls).length = Y.length + 1 := by rw [hY]; simp
  simp only [bodyEndCond, decide_eq_true_eq]
  constructor
  · rw [hYlen, show Y.length + 1 - 1 = Y.length from by omega,
      getElem?_append_offset, hY, List.append_assoc,
      List.getElem?_append_right (le_refl _), Nat.sub_self]
    simp
  · rw [show C.length + ((linesText ls).length - 1) + 1 =
      C.length + (linesText ls).length from by omega]
    exact hcond.imp (fun h => h) id

lemma findBodyEnd_body {ls : List (List Char)} (hgood : ∀ l ∈ ls, goodLine l)
    (hne : ls ≠ []) (C R : List Char)
    (hcond : C.length + (linesText ls).length =
        (C ++ (linesText ls ++ R)).length ∨
      aggMarkerAt (C ++ (linesText ls ++ R))
        (C.length + (linesText ls).length) = true) :
    findBodyEnd (C ++ (linesText ls ++ R)) C.length =
      some (C.length + ((linesText ls).length - 1)) := by
  have hpos := linesText_length_pos hne
  refine findBodyEnd_eq_some (by omega) ?_ ?_ (bodyEndCond_true_at_end hne C R hcond)
  · have : (C ++ (linesText ls ++ R)).length =
        C.length + ((linesText ls).length + R.length) := by
      simp [List.length_append]
    omega
  · intro j hj1 hj2
    have hk : j = C.length + (j - C.length) := by omega
    rw [hk]
    exact bodyEndCond_false_in_lines hgood C R (j - C.length) (by omega)

end Build

namespace Build

lemma getLast?_of_append_prev {C Z : List Char} (hC : C ≠ []) :
    (C ++ Z)[C.length - 1]? = C.getLast? := by
  rw [List.getElem?_append_left (by
    have : 0 < C.length := List.length_pos.2 hC
    omega)]
  exact (List.getLast?_eq_getElem? C).symm

lemma lineStartAt_append_boundary {C Z : List Char}
    (hC : C = [] ∨ C.getLast? = some '\n') :
    lineStartAt (C ++ Z) C.length = true := by
  unfold lineStartAt
  rw [decide_eq_true_eq]
  rcases hC with rfl | hlast
  · exact Or.inl rfl
  · refine Or.inr ?_
    have hne : C ≠ [] := by
      intro h0
      rw [h0] at hlast
      simp at hlast
    rw [getLast?_of_append_prev hne, hlast]

/-- A full regex match on the separator-plus-own-block segment. -/
lemma fullMatchAt_sep_block {url : List Char} {ls : List (List Char)}
    (C R : List Char)
    (hgood : ∀ l ∈ ls, goodLine l) (hne : ls ≠ [])
    (hC : C = [] ∨ C.getLast? = some '\n')
    (hR : R = [] ∨ ∃ u2 b2 R2, R = '\n' :: blkText u2 b2 ++ R2) :
    fullMatchAt url (C ++ (('\n' :: blkText url (linesText ls)) ++ R)) C.length =
      some (C.length + (1 + (blkText url (linesText ls)).length)) := by
  have hshape : ('\n' :: blkText url (linesText ls)) ++ R =
      '\n' :: (("  ").data ++ headerLit url ++ (linesText ls ++ R)) := by
    unfold blkText
    simp [List.append_assoc]
  have hls : lineStartAt (C ++ (('\n' :: blkText url (linesText ls)) ++ R))
      C.length = true := lineStartAt_append_boundary hC
  have hhdr := @matchHeaderAt_some_of_sep_shape url
    (C ++ (('\n' :: blkText url (linesText ls)) ++ R))
    (linesText ls ++ R) C.length hls
    (by rw [List.drop_left, hshape])
  have hfm : fullMatchAt url (C ++ (('\n' :: blkText url (linesText ls)) ++ R))
      C.length =
      (match findBodyEnd (C ++ (('\n' :: blkText url (linesText ls)) ++ R))
          (C.length + 3 + (headerLit url).length) with
        | none => none
        | some e => some (e + 1)) := by
    unfold fullMatchAt
    rw [hhdr]
  rw [hfm]
  have hC' : C ++ (('\n' :: blkText url (linesText ls)) ++ R) =
      (C ++ ('\n' :: (("  ").data ++ headerLit url))) ++ (linesText ls ++ R) := by
    rw [hshape]
    simp [List.append_assoc]
  have hC'len : (C ++ ('\n' :: (("  ").data ++ headerLit url))).length =
      C.length + 3 + (headerLit url).length := by
    simp [List.length_append]
    omega
  have hbody : findBodyEnd (C ++ (('\n' :: blkText url (linesText ls)) ++ R))
      (C.length + 3 + (headerLit url).length) =
      some (C.length + 3 + (headerLit url).length + ((linesText ls).length - 1)) := by
    rw [hC', ← hC'len]
    apply findBodyEnd_body hgood hne
    rcases hR with rfl | ⟨u2, b2, R2, rfl⟩
    · left
      simp only [List.length_append, List.length_cons, List.length_nil]
      omega
    · right
      obtain ⟨Y, hY⟩ := linesText_ends_nl hne
      have hYlen : (linesText ls).length = Y.length + 1 := by rw [hY]; simp
      apply aggMarkerAt_of_sep_shape (u := u2) (X := b2 ++ R2)
      · unfold lineStartAt
        rw [decide_eq_true_eq]
        refine Or.inr ?_
        rw [show (C ++ ('\n' :: (("  ").data ++ headerLit url))).length +
            (linesText ls).length - 1 =
            (C ++ ('\n' :: (("  ").data ++ headerLit url))).length + Y.length from by
              omega,
          getElem?_append_offset, hY, List.append_assoc,
          List.getElem?_append_right (le_refl _), Nat.sub_self]
        simp
      · rw [drop_append_offset, List.drop_left]
        unfold blkText
        simp [List.append_assoc]
  rw [hbody]
  show some (C.length + 3 + (headerLit url).length + ((linesText ls).length - 1) + 1) = _
  have h1 := linesText_length_pos hne
  have h2 := blkText_length url (linesText ls)
  congr 1
  omega

end Build

namespace Build

/-- A full regex match on a block at the very start of the text. -/
lemma fullMatchAt_block0 {url : List Char} {ls : List (List Char)}
    (R : List Char) (hgood : ∀ l ∈ ls, goodLine l) (hne : ls ≠ [])
    (hR : R = [] ∨ ∃ u2 b2 R2, R = '\n' :: blkText u2 b2 ++ R2) :
    fullMatchAt url (blkText url (linesText ls) ++ R) 0 =
      some ((blkText url (linesText ls)).length) := by
  have hshape : blkText url (linesText ls) ++ R =
      ("  ").data ++ headerLit url ++ (linesText ls ++ R) := by
    unfold blkText
    simp [List.append_assoc]
  have hls : lineStartAt (blkText url (linesText ls) ++ R) 0 = true := by
    unfold lineStartAt
    simp
  have hhdr := @matchHeaderAt_some_of_start_shape url
    (blkText url (linesText ls) ++ R)
    (linesText ls ++ R) 0 hls (by rw [List.drop_zero, hshape])
  have hfm : fullMatchAt url (blkText url (linesText ls) ++ R) 0 =
      (match findBodyEnd (blkText url (linesText ls) ++ R)
          (0 + 2 + (headerLit url).length) with
        | none => none
        | some e => some (e + 1)) := by
    unfold fullMatchAt
    rw [hhdr]
  rw [hfm]
  have hC'len : ((("  ").data ++ headerLit url)).length =
      0 + 2 + (headerLit url).length := by
    simp [List.length_append]
    omega
  have hbody : findBodyEnd (blkText url (linesText ls) ++ R)
      (0 + 2 + (headerLit url).length) =
      some (0 + 2 + (headerLit url).length + ((linesText ls).length - 1)) := by
    rw [hshape, ← hC'len]
    apply findBodyEnd_body hgood hne
    rcases hR with rfl | ⟨u2, b2, R2, rfl⟩
    · left
      simp only [List.length_append, List.length_cons, List.length_nil]
      omega
    · right
      obtain ⟨Y, hY⟩ := linesText_ends_nl hne
      have hYlen : (linesText ls).length = Y.length + 1 := by rw [hY]; simp
      apply aggMarkerAt_of_sep_shape (u := u2) (X := b2 ++ R2)
      · unfold lineStartAt
        rw [decide_eq_true_eq]
        refine Or.inr ?_
        rw [show (("  ").data ++ headerLit url).length + (linesText ls).length - 1 =
            (("  ").data ++ headerLit url).length + Y.length from by omega,
          getElem?_append_offset, hY, List.append_assoc,
          List.getElem?_append_right (le_refl _), Nat.sub_self]
        simp
      · rw [drop_append_offset, List.drop_left]
        unfold blkText
        simp [List.append_assoc]
  rw [hbody]
  have h1 := linesText_length_pos hne
  have h2 := blkText_length url (linesText ls)
  simp only [Option.some.injEq]
  omega

end Build

namespace Build

/-! ## Block descriptors and block chains -/

lemma sourceOutput_eq_blockOut (rules : List AggRule) (s : AggSource) :
    sourceOutput s.url rules = blockOut (srcDesc rules s) := by
  unfold sourceOutput blockOut srcDesc blkText linesText
  simp [List.map_map]
  rfl

lemma goodLine_ruleLineCore {r : AggRule} (h : goodAggRule r) :
    goodLine (ruleLineCore r) := by
  obtain ⟨hne, hhead, hnr, hnc⟩ := h
  obtain ⟨c, cs, hc⟩ : ∃ c cs, r.rule = c :: cs := by
    cases hr : r.rule with
    | nil => exact absurd hr hne
    | cons c cs => exact ⟨c, cs, rfl⟩
  have hmark : '\n' ∉ ("#!aggregated").data := by decide
  refine ⟨by unfold ruleLineCore; rw [hc]; simp, ?_, ?_⟩
  · unfold ruleLineCore
    intro hmem
    simp only [List.mem_append, List.mem_singleton] at hmem
    rcases hmem with ((((hmem | hmem) | hmem) | hmem) | hmem)
    · exact hnr hmem
    · exact absurd hmem (by decide)
    · exact hnc hmem
    · rcases hcom : r.comment.isEmpty with _ | _ <;> rw [hcom] at hmem <;> simp at hmem
    · exact hmark hmem
  · intro x hx
    unfold ruleLineCore at hx
    rw [hc] at hx
    simp at hx
    rw [← hx]
    exact hhead c (by rw [hc]; rfl)

lemma blockOut_ends_nl (d : List Char × List (List Char)) :
    (blockOut d).getLast? = some '\n' := by
  unfold blockOut blkText
  cases hd : d.2 with
  | nil =>
      rw [linesText]
      simp only [List.map_nil, List.flatten_nil, List.append_nil]
      rw [List.getLast?_append_of_ne_nil _ (by unfold headerLit; simp)]
      unfold headerLit
      rw [List.getLast?_append_of_ne_nil _ (by simp)]
      rfl
  | cons l ls =>
      obtain ⟨Y, hY⟩ := @linesText_ends_nl (l :: ls) (by simp)
      rw [hY, List.getLast?_append_of_ne_nil _ (by simp),
        List.getLast?_append_of_ne_nil _ (by simp)]
      rfl

lemma blockOut_ne_nil (d : List Char × List (List Char)) : blockOut d ≠ [] :=
  blkText_ne_nil d.1 (linesText d.2)

lemma chainState_map_ends (ds : List (List Char × List (List Char))) :
    ∀ t0 : List Char, t0 = [] ∨ t0.getLast? = some '\n' →
      chainState t0 (ds.map blockOut) = [] ∨
        (chainState t0 (ds.map blockOut)).getLast? = some '\n' := by
  induction ds with
  | nil =>
      intro t0 h
      rcases h with rfl | h
      · exact Or.inl rfl
      · exact Or.inr h
  | cons d ds ih =>
      intro t0 h
      rw [List.map_cons, chainState_cons]
      refine ih _ (Or.inr ?_)
      unfold appendOut
      rw [List.append_assoc,
        List.getLast?_append_of_ne_nil _ (by simp [blockOut_ne_nil d]),
        List.getLast?_append_of_ne_nil _ (blockOut_ne_nil d)]
      exact blockOut_ends_nl d

end Build

namespace Build

/-- No header match for `url` starts inside a run of separator-prefixed
blocks whose URLs all differ from `url`. -/
lemma matchHeaderAt_none_in_tail {url : List Char} (hnlurl : '\n' ∉ url) :
    ∀ (ds : List (List Char × List (List Char))) (C R : List Char),
      (∀ d ∈ ds, d.1 ≠ url ∧ '\n' ∉ d.1 ∧ ∀ l ∈ d.2, goodLine l) →
      ∀ k, k < (tailBlocks (ds.map blockOut)).length →
        matchHeaderAt url (C ++ (tailBlocks (ds.map blockOut) ++ R)) (C.length + k) = none := by
  intro ds
  induction ds with
  | nil =>
      intro C R _ k hk
      simp [tailBlocks] at hk
  | cons d ds ih =>
      intro C R hds k hk
      obtain ⟨hne, hnlu, hgood⟩ := hds d (List.mem_cons_self d ds)
      rw [List.map_cons, tailBlocks_cons] at hk ⊢
      simp only [List.length_cons, List.length_append] at hk
      by_cases hcase : k < 1 + (blockOut d).length
      · have htext : C ++ (('\n' :: (blockOut d ++ tailBlocks (List.map blockOut ds))) ++ R) =
            C ++ (('\n' :: blkText d.1 (linesText d.2)) ++
              (tailBlocks (List.map blockOut ds) ++ R)) := by
          unfold blockOut
          simp [List.append_assoc]
        rw [htext]
        refine matchHeaderAt_none_in_sepBlock C _ hne hnlu hnlurl hgood k ?_
        simp only [List.length_cons]
        unfold blockOut at hcase
        omega
      · have htext : C ++ (('\n' :: (blockOut d ++ tailBlocks (List.map blockOut ds))) ++ R) =
            (C ++ ('\n' :: blockOut d)) ++ (tailBlocks (List.map blockOut ds) ++ R) := by
          simp [List.append_assoc]
        have hidx : C.length + k =
            (C ++ ('\n' :: blockOut d)).length + (k - (1 + (blockOut d).length)) := by
          simp only [List.length_append, List.length_cons]
          omega
        rw [htext, hidx]
        refine ih (C ++ ('\n' :: blockOut d)) R
          (fun d2 hd2 => hds d2 (List.mem_cons_of_mem d hd2)) _ ?_
        omega

end Build

namespace Build

/-- No header match for a fresh `url` starts anywhere inside clean text
followed by blocks whose URLs all differ from `url`. -/
lemma matchHeaderAt_none_in_chainPrefix {url t0 : List Char} (hnlurl : '\n' ∉ url)
    (hclean : cleanDest t0)
    (ds : List (List Char × List (List Char)))
    (hds : ∀ d ∈ ds, d.1 ≠ url ∧ '\n' ∉ d.1 ∧ ∀ l ∈ d.2, goodLine l)
    (R : List Char) (hR : R = [] ∨ R.head? = some '\n') :
    ∀ i, i < (chainState t0 (ds.map blockOut)).length →
      matchHeaderAt url (chainState t0 (ds.map blockOut) ++ R) i = none := by
  intro i hi
  by_cases ht0 : t0 = []
  · subst ht0
    cases ds with
    | nil =>
        simp [chainState] at hi
    | cons d ds2 =>
        rw [List.map_cons, chainState_nil_cons _ _ (blockOut_ne_nil d)] at hi ⊢
        obtain ⟨hne, hnlu, hgood⟩ := hds d (List.mem_cons_self d ds2)
        by_cases hcase : i < (blockOut d).length
        · have htext : (blockOut d ++ tailBlocks (List.map blockOut ds2)) ++ R =
              blkText d.1 (linesText d.2) ++ (tailBlocks (List.map blockOut ds2) ++ R) := by
            unfold blockOut
            simp [List.append_assoc]
          rw [htext]
          exact matchHeaderAt_none_in_block0 _ hne hnlu hnlurl hgood i
            (by unfold blockOut at hcase; exact hcase)
        · have htext : (blockOut d ++ tailBlocks (List.map blockOut ds2)) ++ R =
              blockOut d ++ (tailBlocks (List.map blockOut ds2) ++ R) := by
            simp [List.append_assoc]
          have hidx : i = (blockOut d).length + (i - (blockOut d).length) := by omega
          rw [htext, hidx]
          refine matchHeaderAt_none_in_tail hnlurl ds2 _ R
            (fun d2 hd2 => hds d2 (List.mem_cons_of_mem d hd2)) _ ?_
          simp only [List.length_append] at hi
          omega
  · rw [chainState_eq_of_ne_nil _ ht0] at hi ⊢
    by_cases hcase : i < t0.length
    · have htext : (t0 ++ tailBlocks (List.map blockOut ds)) ++ R =
          t0 ++ (tailBlocks (List.map blockOut ds) ++ R) := by
        simp [List.append_assoc]
      rw [htext]
      refine matchHeaderAt_none_in_clean hclean ?_ i hcase
      cases ds with
      | nil =>
          simp only [List.map_nil]
          unfold tailBlocks
          simpa using hR
      | cons d ds2 =>
          right
          rw [List.map_cons, tailBlocks_cons]
          rfl
    · have htext : (t0 ++ tailBlocks (List.map blockOut ds)) ++ R =
          t0 ++ (tailBlocks (List.map blockOut ds) ++ R) := by
        simp [List.append_assoc]
      have hidx : i = t0.length + (i - t0.length) := by omega
      rw [htext, hidx]
      refine matchHeaderAt_none_in_tail hnlurl ds t0 R hds _ ?_
      simp only [List.length_append] at hi
      omega

end Build

namespace Build

/-- `re.search` finds nothing for a URL that has no block in the text. -/
lemma findBlock_none_chain {url t0 : List Char} (hnlurl : '\n' ∉ url)
    (hclean : cleanDest t0)
    (ds : List (List Char × List (List Char)))
    (hds : ∀ d ∈ ds, d.1 ≠ url ∧ '\n' ∉ d.1 ∧ ∀ l ∈ d.2, goodLine l) :
    findBlock url (chainState t0 (ds.map blockOut)) = none := by
  apply findBlock_eq_none
  intro i hi
  apply fullMatchAt_none_of_header
  have := matchHeaderAt_none_in_chainPrefix hnlurl hclean ds hds [] (Or.inl rfl) i hi
  rwa [List.append_nil] at this

lemma mergeOne_of_findBlock_none {url out t : List Char}
    (h : findBlock url t = none) :
    mergeOne url out t = appendOut t out := by
  unfold mergeOne appendOut
  rw [h]

lemma mergeOne_of_findBlock_some {url out t : List Char} {s e : Nat}
    (h : findBlock url t = some (s, e)) :
    mergeOne url out t =
      t.take s ++ (if s = 0 then [] else ['\n']) ++ out ++ t.drop e := by
  unfold mergeOne
  rw [h]

lemma chainState_snoc (t0 : List Char) (outs : List (List Char)) (o : List Char) :
    chainState t0 (outs ++ [o]) = appendOut (chainState t0 outs) o := by
  unfold chainState
  rw [List.foldl_append]
  rfl

end Build

namespace Build

/-- Replacing one source's block in a chain: the merge finds exactly that
block (its match starting at the preceding separator newline, or at
position 0 when nothing precedes it) and swaps in the new output, leaving
everything else byte-identical. -/
lemma mergeOne_replace {url t0 : List Char} {ls : List (List Char)}
    (pre post : List (List Char × List (List Char))) (out : List Char)
    (hclean : cleanDest t0) (hnlurl : '\n' ∉ url)
    (hpre : ∀ d ∈ pre, d.1 ≠ url ∧ '\n' ∉ d.1 ∧ ∀ l ∈ d.2, goodLine l)
    (hls : ls ≠ []) (hgood : ∀ l ∈ ls, goodLine l) (hout : out ≠ []) :
    mergeOne url out
      (chainState t0 (pre.map blockOut ++ blkText url (linesText ls) :: post.map blockOut)) =
      chainState t0 (pre.map blockOut ++ out :: post.map blockOut) := by
  have hBne : blkText url (linesText ls) ≠ [] := blkText_ne_nil _ _
  have hsplitL : chainState t0
      (pre.map blockOut ++ blkText url (linesText ls) :: post.map blockOut) =
      chainState (chainState t0 (pre.map blockOut))
        (blkText url (linesText ls) :: post.map blockOut) := by
    rw [← chainState_append]
  have hsplitR : chainState t0 (pre.map blockOut ++ out :: post.map blockOut) =
      chainState (chainState t0 (pre.map blockOut)) (out :: post.map blockOut) := by
    rw [← chainState_append]
  rw [hsplitL, hsplitR]
  have hRshape : tailBlocks (post.map blockOut) = [] ∨
      ∃ u2 b2 R2, tailBlocks (post.map blockOut) = '\n' :: blkText u2 b2 ++ R2 := by
    cases post with
    | nil => exact Or.inl rfl
    | cons d2 post2 =>
        refine Or.inr ⟨d2.1, linesText d2.2, tailBlocks (post2.map blockOut), ?_⟩
        rw [List.map_cons, tailBlocks_cons]
        rfl
  by_cases hP : chainState t0 (pre.map blockOut) = []
  · rw [hP, chainState_nil_cons _ _ hBne, chainState_nil_cons _ _ hout]
    have hmatch := @fullMatchAt_block0 url ls
      (tailBlocks (post.map blockOut)) hgood hls hRshape
    have hfb : findBlock url
        (blkText url (linesText ls) ++ tailBlocks (post.map blockOut)) =
        some (0, (blkText url (linesText ls)).length) :=
      findBlock_eq_some
        (by
          simp only [List.length_append]
          have := List.length_pos.2 hBne
          omega)
        (fun j hj => absurd hj (Nat.not_lt_zero j)) hmatch
    rw [mergeOne_of_findBlock_some hfb]
    rw [if_pos rfl, List.take_zero, List.drop_left]
    simp
  · have hPform := chainState_eq_of_ne_nil
      (blkText url (linesText ls) :: post.map blockOut) hP
    rw [tailBlocks_cons] at hPform
    have hPend := chainState_map_ends pre t0 hclean.1
    have hmatch := @fullMatchAt_sep_block url ls
      (chainState t0 (pre.map blockOut)) (tailBlocks (post.map blockOut))
      hgood hls hPend hRshape
    have hnone : ∀ j, j < (chainState t0 (pre.map blockOut)).length →
        fullMatchAt url
          (chainState t0 (pre.map blockOut) ++
            (('\n' :: blkText url (linesText ls)) ++ tailBlocks (post.map blockOut)))
          j = none := by
      intro j hj
      exact fullMatchAt_none_of_header
        (matchHeaderAt_none_in_chainPrefix hnlurl hclean pre hpre _
          (Or.inr (by simp)) j hj)
    have hTform : chainState (chainState t0 (pre.map blockOut))
        (blkText url (linesText ls) :: post.map blockOut) =
        chainState t0 (pre.map blockOut) ++
          (('\n' :: blkText url (linesText ls)) ++ tailBlocks (post.map blockOut)) := by
      rw [hPform]
      rfl
    have hfb : findBlock url
        (chainState t0 (pre.map blockOut) ++
          (('\n' :: blkText url (linesText ls)) ++ tailBlocks (post.map blockOut))) =
        some ((chainState t0 (pre.map blockOut)).length,
          (chainState t0 (pre.map blockOut)).length +
            (1 + (blkText url (linesText ls)).length)) :=
      findBlock_eq_some
        (by
          simp only [List.length_append, List.length_cons]
          omega)
        hnone hmatch
    rw [hTform, mergeOne_of_findBlock_some hfb]
    have hP0 : (chainState t0 (pre.map blockOut)).length ≠ 0 := by
      intro h0
      exact hP (List.eq_nil_of_length_eq_zero h0)
    rw [if_neg hP0, List.take_left]
    have hdlen : (chainState t0 (pre.map blockOut)).length +
        (1 + (blkText url (linesText ls)).length) =
        (chainState t0 (pre.map blockOut) ++
          ('\n' :: blkText url (linesText ls))).length := by
      simp only [List.length_append, List.length_cons]
      omega
    have hdrop : (chainState t0 (pre.map blockOut) ++
        (('\n' :: blkText url (linesText ls)) ++ tailBlocks (post.map blockOut))).drop
          ((chainState t0 (pre.map blockOut)).length +
            (1 + (blkText url (linesText ls)).length)) =
        tailBlocks (post.map blockOut) := by
      rw [hdlen, ← List.append_assoc, List.drop_left]
    rw [hdrop]
    rw [chainState_eq_of_ne_nil _ hP, tailBlocks_cons]
    simp
end Build

namespace Build

/-- Appending pass: when no source has a block yet, the merge loop appends
each source's block in declaration order. -/
lemma runTaskMerge_append (rules : List AggRule)
    (hrules : ∀ r ∈ rules, goodAggRule r)
    (t0 : List Char) (hclean : cleanDest t0) :
    ∀ (sources : List AggSource) (pre : List (List Char × List (List Char))),
      (∀ s ∈ sources, '\n' ∉ s.url) →
      (∀ d ∈ pre, (∀ s ∈ sources, d.1 ≠ s.url) ∧ '\n' ∉ d.1 ∧ ∀ l ∈ d.2, goodLine l) →
      sources.Pairwise (fun a b => a.url ≠ b.url) →
      sources.foldl (fun t s => mergeOne s.url (sourceOutput s.url rules) t)
          (chainState t0 (pre.map blockOut)) =
        chainState t0 ((pre ++ sources.map (srcDesc rules)).map blockOut) := by
  intro sources
  induction sources with
  | nil =>
      intro pre _ _ _
      simp [List.foldl_nil]
  | cons s rest ih =>
      intro pre hnl hpre hpw
      rw [List.foldl_cons]
      have hds : ∀ d ∈ pre, d.1 ≠ s.url ∧ '\n' ∉ d.1 ∧ ∀ l ∈ d.2, goodLine l := by
        intro d hd
        obtain ⟨h1, h2, h3⟩ := hpre d hd
        exact ⟨h1 s (List.mem_cons_self s rest), h2, h3⟩
      have hfb := findBlock_none_chain (hnl s (List.mem_cons_self s rest))
        hclean pre hds
      rw [mergeOne_of_findBlock_none hfb]
      have hstep : appendOut (chainState t0 (pre.map blockOut))
          (sourceOutput s.url rules) =
          chainState t0 ((pre ++ [srcDesc rules s]).map blockOut) := by
        rw [List.map_append, List.map_cons, List.map_nil,
          chainState_snoc, sourceOutput_eq_blockOut]
      rw [hstep]
      have := ih (pre ++ [srcDesc rules s])
        (fun s2 hs2 => hnl s2 (List.mem_cons_of_mem s hs2))
        (by
          intro d hd
          rcases List.mem_append.1 hd with hd1 | hd2
          · obtain ⟨h1, h2, h3⟩ := hpre d hd1
            exact ⟨fun s2 hs2 => h1 s2 (List.mem_cons_of_mem s hs2), h2, h3⟩
          · rw [List.mem_singleton] at hd2
            subst hd2
            refine ⟨?_, hnl s (List.mem_cons_self s rest), ?_⟩
            · intro s2 hs2
              exact (List.pairwise_cons.1 hpw).1 s2 hs2
            · intro l hl
              unfold srcDesc at hl
              simp only [List.mem_map] at hl
              obtain ⟨r, hr, rfl⟩ := hl
              exact goodLine_ruleLineCore (hrules r (List.mem_of_mem_filter hr)))
        (List.pairwise_cons.1 hpw).2
      rw [this]
      rw [List.append_assoc]
      rfl

end Build

namespace Build

lemma sourceOutput_ne_nil (url : List Char) (rules : List AggRule) :
    sourceOutput url rules ≠ [] := by
  unfold sourceOutput
  simp

/-- Replacing pass: when every source already has a block, in declaration
order, the merge loop replaces each block in place. -/
lemma runTaskMerge_replace (rules : List AggRule)
    (hrules : ∀ r ∈ rules, goodAggRule r)
    (t0 : List Char) (hclean : cleanDest t0) :
    ∀ (sources : List AggSource) (olds pre : List (List Char × List (List Char))),
      olds.map Prod.fst = sources.map AggSource.url →
      (∀ d ∈ olds, d.2 ≠ [] ∧ ∀ l ∈ d.2, goodLine l) →
      (∀ s ∈ sources, '\n' ∉ s.url) →
      sources.Pairwise (fun a b => a.url ≠ b.url) →
      (∀ d ∈ pre, (∀ s ∈ sources, d.1 ≠ s.url) ∧ '\n' ∉ d.1 ∧ ∀ l ∈ d.2, goodLine l) →
      sources.foldl (fun t s => mergeOne s.url (sourceOutput s.url rules) t)
          (chainState t0 ((pre ++ olds).map blockOut)) =
        chainState t0 ((pre ++ sources.map (srcDesc rules)).map blockOut) := by
  intro sources
  induction sources with
  | nil =>
      intro olds pre hurls _ _ _ _
      rw [List.map_nil, List.map_eq_nil_iff] at hurls
      subst hurls
      simp [List.foldl_nil]
  | cons s rest ih =>
      intro olds pre hurls holds hnl hpw hpre
      cases olds with
      | nil => simp at hurls
      | cons d olds2 =>
          simp only [List.map_cons, List.cons.injEq] at hurls
          obtain ⟨hd1, hurls2⟩ := hurls
          obtain ⟨hdne, hdgood⟩ := holds d (List.mem_cons_self d olds2)
          rw [List.foldl_cons]
          have hblk : blockOut d = blkText s.url (linesText d.2) := by
            unfold blockOut
            rw [hd1]
          have hform : (pre ++ d :: olds2).map blockOut =
              pre.map blockOut ++
                blkText s.url (linesText d.2) :: olds2.map blockOut := by
            rw [List.map_append, List.map_cons, hblk]
          rw [hform]
          have hds : ∀ d2 ∈ pre, d2.1 ≠ s.url ∧ '\n' ∉ d2.1 ∧ ∀ l ∈ d2.2, goodLine l := by
            intro d2 hd2
            obtain ⟨h1, h2, h3⟩ := hpre d2 hd2
            exact ⟨h1 s (List.mem_cons_self s rest), h2, h3⟩
          rw [mergeOne_replace pre olds2 (sourceOutput s.url rules) hclean
            (hnl s (List.mem_cons_self s rest)) hds hdne hdgood
            (sourceOutput_ne_nil s.url rules)]
          have hstep : pre.map blockOut ++ sourceOutput s.url rules :: olds2.map blockOut =
              ((pre ++ [srcDesc rules s]) ++ olds2).map blockOut := by
            rw [sourceOutput_eq_blockOut]
            simp [List.map_append]
          rw [hstep]
          have := ih olds2 (pre ++ [srcDesc rules s]) hurls2
            (fun d2 hd2 => holds d2 (List.mem_cons_of_mem d hd2))
            (fun s2 hs2 => hnl s2 (List.mem_cons_of_mem s hs2))
            (List.pairwise_cons.1 hpw).2
            (by
              intro d2 hd2
              rcases List.mem_append.1 hd2 with hd3 | hd3
              · obtain ⟨h1, h2, h3⟩ := hpre d2 hd3
                exact ⟨fun s2 hs2 => h1 s2 (List.mem_cons_of_mem s hs2), h2, h3⟩
              · rw [List.mem_singleton] at hd3
                subst hd3
                refine ⟨?_, hnl s (List.mem_cons_self s rest), ?_⟩
                · intro s2 hs2
                  exact (List.pairwise_cons.1 hpw).1 s2 hs2
                · intro l hl
                  unfold srcDesc at hl
                  simp only [List.mem_map] at hl
                  obtain ⟨r, hr, rfl⟩ := hl
                  exact goodLine_ruleLineCore (hrules r (List.mem_of_mem_filter hr)))
          rw [this]
          rw [List.append_assoc]
          rfl

end Build

namespace Build

lemma goodLine_of_checks (l : List Char) (h1 : l ≠ []) (h2 : '\n' ∉ l)
    (h3 : l.head?.all (fun x => ! isPySpace x) = true) : goodLine l := by
  refine ⟨h1, h2, ?_⟩
  intro x hx
  rw [hx] at h3
  simpa using h3

lemma goodAggRule_of_checks (r : AggRule) (h1 : r.rule ≠ [])
    (h2 : r.rule.head?.all (fun x => ! isPySpace x) = true)
    (h3 : '\n' ∉ r.rule) (h4 : '\n' ∉ r.comment) : goodAggRule r := by
  refine ⟨h1, ?_, h3, h4⟩
  intro x hx
  rw [hx] at h2
  simpa using h2

lemma cleanDest_of_checks (t : List Char)
    (h1 : t = [] ∨ t.getLast? = some '\n')
    (h2 : ∀ i, i < t.length → lineStartAt t i → ∃ c ∈ t.drop i, ¬ isPySpace c)
    (h3 : ∀ i, i ≤ t.length → ¬ ("#!aggregated").data.isPrefixOf (t.drop i)) :
    cleanDest t := by
  refine ⟨h1, h2, ?_⟩
  intro i
  by_cases hi : i ≤ t.length
  · exact h3 i hi
  · rw [List.drop_eq_nil_of_le (by omega)]
    decide

end Build

namespace Build

/-- C3: as stated the claim is false: merging one source twice into the
destination text `foo` (which lacks a trailing newline) appends the block
on the first run and then, on the second run, matches the block starting
only at the whitespace after `foo\n` and re-inserts a separator newline,
adding a blank line — the outputs differ. -/
theorem C3_counterexample :
    runTaskMerge [{ url := ("u").data, fetched := none }]
        [{ rule := ("a").data, comment := [], path := ("u").data }]
        (runTaskMerge [{ url := ("u").data, fetched := none }]
          [{ rule := ("a").data, comment := [], path := ("u").data }]
          (("foo").data)) ≠
      runTaskMerge [{ url := ("u").data, fetched := none }]
        [{ rule := ("a").data, comment := [], path := ("u").data }]
        (("foo").data) := by
  decide

/-- C3 (amended): for a destination whose text is empty or
newline-terminated, has no whitespace-only line suffixes and no occurrence
of the marker word, and sources with distinct newline-free URLs each
contributing at least one well-formed rule, the merge is idempotent:
running the merge loop twice over the same extracted rules yields output
byte-identical to running it once. -/
theorem C3_merge_idempotent_on_clean (sources : List AggSource)
    (rules : List AggRule) (t0 : List Char)
    (hclean : cleanDest t0)
    (hrules : ∀ r ∈ rules, goodAggRule r)
    (hnl : ∀ s ∈ sources, '\n' ∉ s.url)
    (hpw : sources.Pairwise (fun a b => a.url ≠ b.url))
    (hsome : ∀ s ∈ sources, rules.filter (fun r => r.path = s.url) ≠ []) :
    runTaskMerge sources rules (runTaskMerge sources rules t0) =
      runTaskMerge sources rules t0 := by
  have h1 : runTaskMerge sources rules t0 =
      chainState t0 ((sources.map (srcDesc rules)).map blockOut) := by
    have := runTaskMerge_append rules hrules t0 hclean sources []
      hnl (by simp) hpw
    unfold runTaskMerge
    simpa using this
  have h2 := runTaskMerge_replace rules hrules t0 hclean sources
    (sources.map (srcDesc rules)) []
    (by rw [List.map_map]; rfl)
    (by
      intro d hd
      simp only [List.mem_map] at hd
      obtain ⟨s, hs, rfl⟩ := hd
      constructor
      · intro h0
        exact hsome s hs (List.map_eq_nil_iff.1 h0)
      · intro l hl
        unfold srcDesc at hl
        simp only [List.mem_map] at hl
        obtain ⟨r, hr, rfl⟩ := hl
        exact goodLine_ruleLineCore (hrules r (List.mem_of_mem_filter hr)))
    hnl hpw (by simp)
  rw [h1]
  unfold runTaskMerge
  simpa using h2

end Build

namespace Build

theorem C3_merge_idempotent_witness :
    runTaskMerge [{ url := ("u").data, fetched := none }]
        [{ rule := ("a").data, comment := [], path := ("u").data }]
        (runTaskMerge [{ url := ("u").data, fetched := none }]
          [{ rule := ("a").data, comment := [], path := ("u").data }]
          (("x\n").data)) =
      runTaskMerge [{ url := ("u").data, fetched := none }]
        [{ rule := ("a").data, comment := [], path := ("u").data }]
        (("x\n").data) :=
  C3_merge_idempotent_on_clean
    [{ url := ("u").data, fetched := none }]
    [{ rule := ("a").data, comment := [], path := ("u").data }]
    (("x\n").data)
    (cleanDest_of_checks _ (by decide) (by decide) (by decide))
    (by
      intro r hr
      rw [List.mem_singleton] at hr
      subst hr
      exact goodAggRule_of_checks _ (by decide) (by decide) (by decide) (by decide))
    (by decide) (by decide) (by decide)

/-- C4: as stated the claim is false: with the hand-written prefix
`foo\n\n\n` (ending in two blank lines) before a source's block, the
match's leading `\s+` consumes both blank lines, so the merge rewrites
text outside the header-delimited block: one hand-written blank line is
lost. -/
theorem C4_counterexample :
    runTaskMerge [{ url := ("u").data, fetched := none }]
        [{ rule := ("a").data, comment := [], path := ("u").data }]
        (("foo\n\n\n  #!aggregated source: u\na #!aggregated\n").data) =
      ("foo\n\n  #!aggregated source: u\na #!aggregated\n").data := by
  decide

/-- C4 (amended): for a destination consisting of clean hand-written text
(empty or newline-terminated, no whitespace-only line suffixes, no marker
occurrences) followed by one block per source in declaration order, with
distinct newline-free source URLs, well-formed extracted rules, and each
existing block body a nonempty run of well-formed lines, the merge is
localized: it rewrites each source's block in place and reproduces the
hand-written text byte-identically before the updated blocks. -/
theorem C4_merge_localized_on_clean (sources : List AggSource)
    (rules : List AggRule) (t0 : List Char)
    (olds : List (List Char × List (List Char)))
    (hclean : cleanDest t0)
    (hrules : ∀ r ∈ rules, goodAggRule r)
    (hnl : ∀ s ∈ sources, '\n' ∉ s.url)
    (hpw : sources.Pairwise (fun a b => a.url ≠ b.url))
    (hurls : olds.map Prod.fst = sources.map AggSource.url)
    (holds : ∀ d ∈ olds, d.2 ≠ [] ∧ ∀ l ∈ d.2, goodLine l) :
    runTaskMerge sources rules (chainState t0 (olds.map blockOut)) =
      chainState t0 ((sources.map (srcDesc rules)).map blockOut) := by
  have := runTaskMerge_replace rules hrules t0 hclean sources olds []
    hurls holds hnl hpw (by simp)
  unfold runTaskMerge
  simpa using this

theorem C4_merge_localized_witness :
    runTaskMerge [{ url := ("u").data, fetched := none }]
        [{ rule := ("a").data, comment := [], path := ("u").data }]
        (chainState (("x\n").data)
          ([((("u").data), [("b #!aggregated").data])].map blockOut)) =
      chainState (("x\n").data)
        (([{ url := ("u").data, fetched := none }].map
          (srcDesc [{ rule := ("a").data, comment := [], path := ("u").data }])).map
            blockOut) :=
  C4_merge_localized_on_clean
    [{ url := ("u").data, fetched := none }]
    [{ rule := ("a").data, comment := [], path := ("u").data }]
    (("x\n").data)
    [((("u").data), [("b #!aggregated").data])]
    (cleanDest_of_checks _ (by decide) (by decide) (by decide))
    (by
      intro r hr
      rw [List.mem_singleton] at hr
      subst hr
      exact goodAggRule_of_checks _ (by decide) (by decide) (by decide) (by decide))
    (by decide) (by decide) (by decide)
    (by
      intro d hd
      rw [List.mem_singleton] at hd
      subst hd
      refine ⟨by simp, ?_⟩
      intro l hl
      rw [List.mem_singleton] at hl
      subst hl
      exact goodLine_of_checks _ (by decide) (by decide) (by decide))

end Build
